import Mathlib

/-!
Shallow embedding of the address-scraper script (src/script.py) and proofs
about its pure core: seed generation, text normalization, address
extraction, the persistent result store, and the per-seed control loop.

Strings are modelled as their lists of characters (a Lean `String` wraps
`List Char`); Python's whitespace class, word class and digit class are
modelled over the ASCII range that the script's data lives in.
-/

namespace Scraper

/-- Python's whitespace class (the ASCII members of the class used by
the script's patterns, by str.strip and str.splitlines). -/
def isPySpace (c : Char) : Bool :=
  c == ' ' || c == '\t' || c == '\n' || c == '\r' || c == '\x0b' || c == '\x0c'

/-- Python's digit class, ASCII. -/
def isPyDigit (c : Char) : Bool :=
  '0' ≤ c && c ≤ '9'

/-- Python's word-character class (for the word boundary assertion of the
anchor pattern), ASCII. -/
def isWordChar (c : Char) : Bool :=
  ('a' ≤ c && c ≤ 'z') || ('A' ≤ c && c ≤ 'Z') || isPyDigit c || c == '_'

/-! ## TextNormalizer: the function norm (script.py lines 34-38)

norm performs three regex substitutions in order:
1. re.sub of one-or-more whitespace by a single space, then str.strip;
2. re.sub of whitespace-run followed by a comma, by the comma alone;
3. re.sub of a comma followed by a whitespace-run, by comma and one space.
Each is implemented as a direct scan equivalent to the non-overlapping,
leftmost, greedy match-and-replace of the Python regex. -/

/-- One step of collapsing whitespace runs to single spaces: a whitespace
character is dropped when the (already collapsed) rest starts with the
space emitted for the same run, else it is emitted as one space. -/
def collapseStep (c : Char) (acc : List Char) : List Char :=
  if isPySpace c then
    if acc.head? == some ' ' then acc else ' ' :: acc
  else c :: acc

/-- re.sub of whitespace-runs by a single space: each maximal run of
whitespace characters becomes one space character. -/
def collapseWs (l : List Char) : List Char :=
  l.foldr collapseStep []

/-- Remove the maximal trailing run of whitespace characters. -/
def dropTrailWs (l : List Char) : List Char :=
  l.foldr (fun c acc => if acc.isEmpty && isPySpace c then [] else c :: acc) []

/-- Python str.strip: drop leading and trailing whitespace. -/
def pyStrip (l : List Char) : List Char :=
  dropTrailWs (l.dropWhile isPySpace)

/-- One step of deleting whitespace that precedes a comma: scanning from
the right, a whitespace character is dropped exactly when everything
between it and a comma is whitespace that is already dropped, i.e. when
the transformed rest starts with the comma. -/
def subWsCommaStep (c : Char) (acc : List Char) : List Char :=
  if isPySpace c then
    if acc.head? == some ',' then acc else c :: acc
  else c :: acc

/-- re.sub of a whitespace-run followed by a comma, by the comma alone. -/
def subWsComma (l : List Char) : List Char :=
  l.foldr subWsCommaStep []

/-- Left-to-right scan for re.sub of comma-then-whitespace-run by comma
and one space. State 0: ordinary; state 1: the previous character was a
comma (a following whitespace run is compressed to one space); state 2:
inside the whitespace run being compressed (the one space was emitted). -/
def subCommaWsAux : Nat → List Char → List Char
  | _, [] => []
  | st, c :: t =>
    if st == 1 && isPySpace c then ' ' :: subCommaWsAux 2 t
    else if st == 2 && isPySpace c then subCommaWsAux 2 t
    else if c == ',' then ',' :: subCommaWsAux 1 t
    else c :: subCommaWsAux 0 t

/-- re.sub of a comma followed by a whitespace-run, by comma and one space. -/
def subCommaWs (l : List Char) : List Char :=
  subCommaWsAux 0 l

/-- The function norm of script.py, on character lists. -/
def normList (l : List Char) : List Char :=
  subCommaWs (subWsComma (pyStrip (collapseWs l)))

/-- The function norm of script.py. -/
def norm (s : String) : String :=
  ⟨normList s.data⟩

/-! ## SeedGenerator: generate_ca_zip_seeds (script.py lines 29-31) -/

/-- CA_ZIP_MIN of script.py. -/
def CA_ZIP_MIN : Int := 90000

/-- CA_ZIP_MAX of script.py. -/
def CA_ZIP_MAX : Int := 96199

/-- Decimal digits of a natural number, most significant first; the
fuel argument only bounds the recursion depth (fuel n suffices for n,
since the value shrinks by a factor ten per step). -/
def natDigitsGo : Nat → Nat → List Char
  | 0, n => [Char.ofNat (48 + n % 10)]
  | fuel + 1, n =>
    if n < 10 then [Char.ofNat (48 + n)]
    else natDigitsGo fuel (n / 10) ++ [Char.ofNat (48 + n % 10)]

/-- Decimal digits of a natural number, most significant first. -/
def natDigits (n : Nat) : List Char :=
  natDigitsGo n n

/-- Python's format f-string with format spec 05d: decimal rendering,
zero-padded on the left (after the sign) to width 5. -/
def pad5 (z : Int) : String :=
  let mag := natDigits z.natAbs
  let sign : List Char := if z < 0 then ['-'] else []
  ⟨sign ++ List.replicate (5 - (mag.length + sign.length)) '0' ++ mag⟩

/-- Number of elements of Python range(start, stop, step); none models the
ValueError that range raises for step = 0. -/
def pyRangeLen (start stop step : Int) : Option Nat :=
  if step = 0 then none
  else if 0 < step then some ((stop - start + step - 1) / step).toNat
  else some ((start - stop + (-step) - 1) / (-step)).toNat

/-- generate_ca_zip_seeds of script.py: list comprehension over
range(start, CA_ZIP_MAX + 1, step) rendering each element with the 05d
format, where start is CA_ZIP_MIN plus step-floor-div-2 when jitter is
set, else CA_ZIP_MIN. none models the ValueError raised for step = 0. -/
def generate_ca_zip_seeds (step : Int) (jitter : Bool) : Option (List String) :=
  let start : Int := if jitter then CA_ZIP_MIN + step / 2 else CA_ZIP_MIN
  (pyRangeLen start (CA_ZIP_MAX + 1) step).map
    (fun n => (List.range n).map (fun i : Nat => pad5 (start + (i : Int) * step)))

/-! ## The anchor pattern ZIP_ANCHOR (script.py line 18)

Pattern: word-boundary, CA, whitespace-run, 9 then four digits, an
optional minus-and-four-digits group, word-boundary; case-insensitive.
search is modelled as a scan over all start positions that tracks
whether the previous character is a word character. -/

/-- Word-boundary test for the end of the anchor match: true at end of
input or before a non-word character. -/
def boundaryOk : List Char → Bool
  | [] => true
  | c :: _ => !isWordChar c

/-- Match of the anchor pattern at the head of the input, after the
initial word boundary: CA (either case), one-or-more whitespace, 9 and
four digits, then either the optional minus-four-digits group followed
by a word boundary, or (backtracking the optional group) a word boundary
directly after the five digits. -/
def zipTail (l : List Char) : Bool :=
  match l with
  | c :: a :: r2 =>
    if (c == 'C' || c == 'c') && (a == 'A' || a == 'a') then
      if (r2.takeWhile isPySpace).length == 0 then false
      else
        match r2.drop (r2.takeWhile isPySpace).length with
        | '9' :: d1 :: d2 :: d3 :: d4 :: r4 =>
          if isPyDigit d1 && isPyDigit d2 && isPyDigit d3 && isPyDigit d4 then
            (match r4 with
             | '-' :: e1 :: e2 :: e3 :: e4 :: r5 =>
               (isPyDigit e1 && isPyDigit e2 && isPyDigit e3 && isPyDigit e4
                 && boundaryOk r5) || boundaryOk r4
             | _ => boundaryOk r4)
          else false
        | _ => false
    else false
  | _ => false

/-- Scan for ZIP_ANCHOR.search: try the anchor at every position; the
flag records whether the previous character is a word character (false
at the start of the input), which decides the initial word boundary. -/
def zipAnchorScan : Bool → List Char → Bool
  | _, [] => false
  | prevW, c :: t => (!prevW && zipTail (c :: t)) || zipAnchorScan (isWordChar c) t

/-- ZIP_ANCHOR.search of script.py, as a Boolean. -/
def zipAnchorFound (l : List Char) : Bool :=
  zipAnchorScan false l

/-! ## Decoration-stripping patterns (script.py lines 19-21)

Each is applied with re.sub(pattern, "") : all non-overlapping matches,
found left to right, are deleted. Matchers return the rest of the input
after a match at the head, or none. -/

/-- Consume a case-insensitive literal (the literal is given lowercase). -/
def eatCI : List Char → List Char → Option (List Char)
  | [], l => some l
  | _ :: _, [] => none
  | p :: ps, c :: cs => if c.toLower == p then eatCI ps cs else none

/-- Match of GET_DIRECTIONS_ANYWHERE at the head: Get, one-or-more
whitespace, Directions, then a greedy whitespace-run; case-insensitive. -/
def getDirM (l : List Char) : Option (List Char) := do
  let r1 ← eatCI ['g', 'e', 't'] l
  let w := r1.takeWhile isPySpace
  if w.length == 0 then none
  else do
    let r2 ← eatCI ['d', 'i', 'r', 'e', 'c', 't', 'i', 'o', 'n', 's'] (r1.drop w.length)
    some (r2.dropWhile isPySpace)

/-- Tail of the MILES_ANYWHERE pattern after the number: whitespace-run,
closing parenthesis, whitespace-run, mile, optional s, optional dot. -/
def milesTail (r : List Char) : Option (List Char) :=
  match r.dropWhile isPySpace with
  | ')' :: rb =>
    match eatCI ['m', 'i', 'l', 'e'] (rb.dropWhile isPySpace) with
    | some rd =>
      let re1 := match rd with
        | c :: x => if c.toLower == 's' then x else rd
        | [] => rd
      match re1 with
      | '.' :: x => some x
      | _ => some re1
    | none => none
  | _ => none

/-- Match of MILES_ANYWHERE at the head: opening parenthesis,
whitespace-run, digits, an optional dot-and-digits group (tried first,
with fallback to the bare integer when the rest fails to match), then
the closing parenthesis and the miles word. -/
def milesM (l : List Char) : Option (List Char) :=
  match l with
  | '(' :: r0 =>
    let r1 := r0.dropWhile isPySpace
    let ds := r1.takeWhile isPyDigit
    if ds.length == 0 then none
    else
      let r2 := r1.drop ds.length
      match r2 with
      | '.' :: r3 =>
        let es := r3.takeWhile isPyDigit
        if es.length == 0 then milesTail r2
        else
          match milesTail (r3.drop es.length) with
          | some x => some x
          | none => milesTail r2
      | _ => milesTail r2
  | _ => none

/-- Match of PHONE_ANYWHERE at the head: Phone:, whitespace-run, a
parenthesized three-digit group, whitespace-run, three digits, a minus,
four digits; case-insensitive. -/
def phoneM (l : List Char) : Option (List Char) := do
  let r ← eatCI ['p', 'h', 'o', 'n', 'e', ':'] l
  match r.dropWhile isPySpace with
  | '(' :: a :: b :: c :: ')' :: r2 =>
    if isPyDigit a && isPyDigit b && isPyDigit c then
      match r2.dropWhile isPySpace with
      | d :: e :: f :: '-' :: g1 :: g2 :: g3 :: g4 :: r4 =>
        if isPyDigit d && isPyDigit e && isPyDigit f &&
           isPyDigit g1 && isPyDigit g2 && isPyDigit g3 && isPyDigit g4 then
          some r4
        else none
      | _ => none
    else none
  | _ => none

/-- re.sub(pattern, "", s): scan left to right; where the matcher
succeeds, drop the matched characters and continue after them, else keep
one character and continue. The fuel argument only bounds the recursion
depth: every step shortens the input by at least one character (all
three matchers consume at least one character, and the length test makes
that so for any matcher), so fuel equal to the input length suffices. -/
def scrubGo (m : List Char → Option (List Char)) : Nat → List Char → List Char
  | _, [] => []
  | 0, l => l
  | fuel + 1, c :: t =>
    match m (c :: t) with
    | some rest =>
      if rest.length < (c :: t).length then scrubGo m fuel rest
      else c :: scrubGo m fuel t
    | none => c :: scrubGo m fuel t

/-- re.sub(pattern, "", s) (see scrubGo). -/
def scrub (m : List Char → Option (List Char)) (l : List Char) : List Char :=
  scrubGo m l.length l

/-! ## The structural address pattern ADDRESS_EXTRACT (script.py lines 23-26)

Pattern: one-to-eight digits, whitespace-run, lazy any-run, comma,
whitespace-run, lazy non-comma-run, comma, whitespace-run, CA,
whitespace-run, 9 and four digits, optional minus-and-four-digits;
case-insensitive, one capture group spanning the whole match. Matchers
return the consumed prefix (the capture) and the rest. -/

/-- Zip-part of the structural pattern: whitespace-run, CA,
one-or-more whitespace, 9 and four digits, then greedily the optional
minus-and-four-digits group. -/
def zipPartM (l : List Char) : Option (List Char × List Char) :=
  match l.drop (l.takeWhile isPySpace).length with
  | c :: a :: r2 =>
    if (c == 'C' || c == 'c') && (a == 'A' || a == 'a') then
      if (r2.takeWhile isPySpace).length == 0 then none
      else
        match r2.drop (r2.takeWhile isPySpace).length with
        | '9' :: d1 :: d2 :: d3 :: d4 :: r4 =>
          if isPyDigit d1 && isPyDigit d2 && isPyDigit d3 && isPyDigit d4 then
            match r4 with
            | '-' :: e1 :: e2 :: e3 :: e4 :: r5 =>
              if isPyDigit e1 && isPyDigit e2 && isPyDigit e3 && isPyDigit e4 then
                some (l.takeWhile isPySpace ++ c :: a :: r2.takeWhile isPySpace ++
                  '9' :: d1 :: d2 :: d3 :: d4 :: '-' :: e1 :: e2 :: e3 :: [e4], r5)
              else
                some (l.takeWhile isPySpace ++ c :: a :: r2.takeWhile isPySpace ++
                  '9' :: d1 :: d2 :: d3 :: [d4], r4)
            | _ =>
              some (l.takeWhile isPySpace ++ c :: a :: r2.takeWhile isPySpace ++
                '9' :: d1 :: d2 :: d3 :: [d4], r4)
          else none
        | _ => none
    else none
  | _ => none

/-- After the first comma of the structural pattern: the lazy non-comma
run must reach a second comma with at least one character before it, then
the zip part follows. The consumed prefix starts after the first comma. -/
def afterC1 (t : List Char) : Option (List Char × List Char) :=
  if (t.takeWhile (fun c => !(c == ','))).length == 0 then none
  else
    match t.drop (t.takeWhile (fun c => !(c == ','))).length with
    | ',' :: t2 =>
      (zipPartM t2).map
        (fun pr => (t.takeWhile (fun c => !(c == ',')) ++ ',' :: pr.1, pr.2))
    | _ => none

/-- Backtracking over the choice of the first comma (the lazy any-run
extends past a failed comma): commas are tried left to right; on failure
of the continuation, the comma is swallowed by the any-run and the scan
continues. The consumed prefix includes the scanned characters. -/
def tryCommasAux : List Char → Option (List Char × List Char)
  | [] => none
  | c :: t =>
    if c == ',' then
      match afterC1 t with
      | some pr => some (',' :: pr.1, pr.2)
      | none => (tryCommasAux t).map (fun pr => (c :: pr.1, pr.2))
    else (tryCommasAux t).map (fun pr => (c :: pr.1, pr.2))

/-- Body of the structural match after the digit run ds and the
whitespace run ws: at least one any-run character precedes the first
comma candidate (tryCommasAux). A comma directly after the whitespace
run is reachable only by giving one whitespace character back to the
lazy any-run, which needs a run of length at least two, and is tried
last (the final fallback branch). -/
def matchAddrBody (ds ws body : List Char) : Option (List Char × List Char) :=
  match body with
  | [] => none
  | b0 :: brest =>
    match tryCommasAux brest with
    | some pr => some (ds ++ ws ++ b0 :: pr.1, pr.2)
    | none =>
      if decide (2 ≤ ws.length) && b0 == ',' then
        (afterC1 brest).map (fun pr => (ds ++ ws ++ ',' :: pr.1, pr.2))
      else none

/-- Match of ADDRESS_EXTRACT at the head of the input. The digit run at
the start must have length one to eight (a longer run leaves a digit
before the whitespace for every greedy backtrack, so no match starts
there); then the whitespace run must be non-empty; the rest is handled
by matchAddrBody. -/
def matchAddr (l : List Char) : Option (List Char × List Char) :=
  if (l.takeWhile isPyDigit).length == 0 || decide (8 < (l.takeWhile isPyDigit).length) then
    none
  else
    if ((l.drop (l.takeWhile isPyDigit).length).takeWhile isPySpace).length == 0 then none
    else
      matchAddrBody (l.takeWhile isPyDigit)
        ((l.drop (l.takeWhile isPyDigit).length).takeWhile isPySpace)
        ((l.drop (l.takeWhile isPyDigit).length).drop
          ((l.drop (l.takeWhile isPyDigit).length).takeWhile isPySpace).length)

/-- ADDRESS_EXTRACT.search of script.py: leftmost start position wins;
returns the capture group (the whole matched substring). -/
def addrSearch : List Char → Option (List Char)
  | [] => none
  | c :: t =>
    match matchAddr (c :: t) with
    | some pr => some pr.1
    | none => addrSearch t

/-! ## AddressExtractor: extract_address_only (script.py lines 41-57) -/

/-- re.search of a digit in the input. -/
def hasDigit (l : List Char) : Bool :=
  l.any isPyDigit

/-- Python str.lower, per character. -/
def toLowerL (l : List Char) : List Char :=
  l.map Char.toLower

/-- Substring containment (models str.rfind compared against -1: only
existence of the pattern is used by the script). -/
def containsSub (pat : List Char) : List Char → Bool
  | [] => pat.length == 0
  | c :: t => pat.isPrefixOf (c :: t) || containsSub pat t

/-- The cleaned line of extract_address_only: normalize, strip the
get-directions label, the miles label, the phone label, re-normalize
(script.py lines 42-46). -/
def cleanedLine (l : List Char) : List Char :=
  normList (scrub phoneM (scrub milesM (scrub getDirM (normList l))))

/-- extract_address_only of script.py, on character lists: on the
cleaned line, return the normalized structural match if any; otherwise,
when the anchor is present, a digit is present, and the lowercased line
contains comma-space-c-a-space (the rfind test against -1), return the
normalized stripped whole line; else none. -/
def extractAddressOnlyL (l : List Char) : Option (List Char) :=
  match addrSearch (cleanedLine l) with
  | some g => some (normList g)
  | none =>
    if zipAnchorFound (cleanedLine l) && hasDigit (cleanedLine l) then
      if containsSub [',', ' ', 'c', 'a', ' '] (toLowerL (cleanedLine l)) then
        some (normList (pyStrip (cleanedLine l)))
      else none
    else none

/-- extract_address_only of script.py. -/
def extract_address_only (s : String) : Option String :=
  (extractAddressOnlyL s.data).map (fun l => ⟨l⟩)

/-! ## AddressExtractor: extract_unique_addresses (script.py lines 60-93) -/

/-- Python str.splitlines restricted to the line terminators that occur
in the modelled data: newline, carriage return, and their combination.
The accumulator holds the current line reversed; a trailing terminator
does not open a final empty line. -/
def splitAux (acc : List Char) : List Char → List (List Char)
  | [] => if acc.isEmpty then [] else [acc.reverse]
  | '\r' :: '\n' :: t => acc.reverse :: splitAux [] t
  | '\n' :: t => acc.reverse :: splitAux [] t
  | '\r' :: t => acc.reverse :: splitAux [] t
  | c :: t => splitAux (c :: acc) t

/-- Python str.splitlines (see splitAux). -/
def splitlines (l : List Char) : List (List Char) :=
  splitAux [] l

/-- Lines of the panel text: split, strip each line, keep the non-empty
ones (script.py line 61), then normalize each (line 62). -/
def cleanedLines (t : List Char) : List (List Char) :=
  (((splitlines t).map pyStrip).filter (fun l => !l.isEmpty)).map normList

/-- Anchor pass (script.py lines 66-70): for each cleaned line containing
the anchor, the extracted address if any. -/
def anchorPass (lines : List (List Char)) : List (List Char) :=
  lines.filterMap (fun ln =>
    if zipAnchorFound ln then extractAddressOnlyL ln else none)

/-- Join a window of lines with single spaces (the space-join of the
windowed pass). -/
def joinSpace (block : List (List Char)) : List Char :=
  List.intercalate [' '] block

/-- Candidate join of the last k window lines, when the window holds at
least k lines. -/
def tryK (block : List (List Char)) (k : Nat) : Option (List Char) :=
  if k ≤ block.length then extractAddressOnlyL (joinSpace (block.drop (block.length - k)))
  else none

/-- The k = 2,3,4,5 candidates, smallest first, first success wins
(the break of script.py line 84). -/
def tryJoins (block : List (List Char)) : Option (List Char) :=
  match tryK block 2 with
  | some a => some a
  | none =>
    match tryK block 3 with
    | some a => some a
    | none =>
      match tryK block 4 with
      | some a => some a
      | none => tryK block 5

/-- Windowed pass (script.py lines 72-84): maintain a trailing window of
at most 5 lines; whenever the newest line contains the anchor, emit the
first successful join candidate. -/
def windowPass : List (List Char) → List (List Char) → List (List Char)
  | _, [] => []
  | block, ln :: rest =>
    let block1 := block ++ [ln]
    let block2 := if decide (5 < block1.length) then block1.drop (block1.length - 5) else block1
    (if zipAnchorFound ln then (tryJoins block2).toList else []) ++ windowPass block2 rest

/-- Both passes concatenated: the list out of script.py. -/
def rawCandidates (t : List Char) : List (List Char) :=
  anchorPass (cleanedLines t) ++ windowPass [] (cleanedLines t)

/-- Final dedup loop of extract_unique_addresses (script.py lines 86-93):
re-normalize each candidate, keep the non-empty ones not seen before, in
order. -/
def uniqAux (seen : List (List Char)) : List (List Char) → List (List Char)
  | [] => []
  | a :: rest =>
    let a2 := normList a
    if !a2.isEmpty && !seen.contains a2 then a2 :: uniqAux (a2 :: seen) rest
    else uniqAux seen rest

/-- extract_unique_addresses of script.py, on character lists. -/
def extractUniqueL (t : List Char) : List (List Char) :=
  uniqAux [] (rawCandidates t)

/-- extract_unique_addresses of script.py. -/
def extract_unique_addresses (s : String) : List String :=
  (extractUniqueL s.data).map (fun l => ⟨l⟩)

/-! ## ResultStore and the per-seed loop of run (script.py lines 185-250)

The durable store is modelled as its list of lines (header first); the
in-memory set seen is modelled as a list queried by membership and grown
by add-if-new, which is membership-equivalent to the Python set. -/

/-- Python str.strip on a String. -/
def pyStripS (s : String) : String :=
  ⟨pyStrip s.data⟩

/-- set.add: add-if-new. -/
def setAdd (seen : List String) (a : String) : List String :=
  if a ∈ seen then seen else seen ++ [a]

/-- Loading the store (script.py lines 189-193): every line after the
header is stripped and, when non-empty, added to the set. -/
def loadSeen (file : List String) : List String :=
  (file.drop 1).foldl
    (fun seen ln =>
      let l := pyStripS ln
      if !l.isEmpty then setAdd seen l else seen)
    []

/-- The store state: the lines of the durable file and the in-memory set. -/
structure Store where
  file : List String
  seen : List String
deriving DecidableEq, Repr

/-- The fresh store: header line written, empty set (script.py lines 188, 195-196). -/
def initStore : Store :=
  { file := ["address"], seen := [] }

/-- The merge of one seed's extracted addresses (script.py lines 237-245):
addresses not in seen are appended to the file normalized, and added to
seen normalized, in order. -/
def mergeNew (st : Store) (addrs : List String) : Store :=
  let newAddrs := addrs.filter (fun a => !st.seen.contains a)
  { file := st.file ++ newAddrs.map norm,
    seen := newAddrs.foldl (fun s a => setAdd s (norm a)) st.seen }

/-- The progress record of one seed iteration (script.py line 247). -/
structure SeedReport where
  attempts : List String
  mode : String
  found : Nat
  fresh : Nat
deriving DecidableEq, Repr

/-- One iteration of the per-seed loop (script.py lines 228-247). The
outcome of submitting a query string and the panel text observed by the
final snapshot are inputs: they stand for the external UI surface. The
bare seed is submitted; on failure the qualified form seed-comma-CA is
submitted once; the mode string is zip, zip_ca or failed accordingly.
Addresses are extracted from the observed panel text (empty text yields
none), the new ones merged into the store, and the progress record built
from the counts. -/
def seedStep (submitOutcome : String → Bool) (panel : String)
    (st : Store) (z : String) : SeedReport × Store :=
  let ok1 := submitOutcome z
  let attempts := if ok1 then [z] else [z, z ++ ", CA"]
  let mode := if ok1 then "zip"
    else if submitOutcome (z ++ ", CA") then "zip_ca" else "failed"
  let addrs := if !panel.isEmpty then extract_unique_addresses panel else []
  let newAddrs := addrs.filter (fun a => !st.seen.contains a)
  ({ attempts := attempts, mode := mode, found := addrs.length,
     fresh := newAddrs.length },
   mergeNew st addrs)

/-- The whole loop: every seed is processed in order, each producing one
progress record; no outcome aborts the loop (script.py lines 216-250). -/
def runLoop (submitOutcome : String → Bool) (panelFor : String → String)
    (st : Store) : List String → List SeedReport
  | [] => []
  | z :: rest =>
    let pr := seedStep submitOutcome (panelFor z) st z
    pr.1 :: runLoop submitOutcome panelFor pr.2 rest

/-! ## Specification-side definitions used as refinement targets -/

/-- First-occurrence deduplication, stated without an auxiliary seen-set:
keep each element's first occurrence, in order. The dedup loop of
extract_unique_addresses is proved to refine this. -/
def dedupFirst (xs : List (List Char)) : List (List Char) :=
  match xs with
  | [] => []
  | a :: l => a :: dedupFirst (l.filter (fun b => !(b == a)))
termination_by xs.length
decreasing_by
  simp only [List.length_cons]
  exact Nat.lt_succ_of_le (List.length_filter_le _ _)

/-! ## Normal-form predicates

A normalized string (an output of norm) contains no whitespace character
other than the space, no two adjacent whitespace characters, no
whitespace directly before a comma, and no whitespace at either end.
These predicates state that; they drive the idempotence proof. -/

/-- Whitespace characters are the plain space. -/
def spacesOk (l : List Char) : Bool :=
  l.all (fun c => !isPySpace c || c == ' ')

/-- No adjacent pair satisfies p-then-q. -/
def noPair (p q : Char → Bool) : List Char → Bool
  | a :: b :: l => !(p a && q b) && noPair p q (b :: l)
  | _ => true

/-- No two adjacent whitespace characters. -/
def noWW (l : List Char) : Bool :=
  noPair isPySpace isPySpace l

/-- No whitespace character directly before a comma. -/
def noWsC (l : List Char) : Bool :=
  noPair isPySpace (fun c => c == ',') l

/-- The first character, if any, is not whitespace. -/
def headOk (l : List Char) : Bool :=
  match l with
  | [] => true
  | c :: _ => !isPySpace c

/-- The last character, if any, is not whitespace. -/
def lastOk : List Char → Bool
  | [] => true
  | [c] => !isPySpace c
  | _ :: t => lastOk t

/-- All five normal-form conditions. -/
def canon (l : List Char) : Bool :=
  spacesOk l && noWW l && noWsC l && headOk l && lastOk l

/-- The word-character flag of the anchor scan after reading a list:
the flag for the character following the list. -/
def flagAfter (b : Bool) : List Char → Bool
  | [] => b
  | c :: t => flagAfter (isWordChar c) t

/-! # Theorems

First the normal-form machinery: every output of norm satisfies canon,
and every list satisfying canon is a fixed point of each normalization
stage. Together these give idempotence of norm and fixed-point facts
used throughout. -/

theorem bool_false_of_not {b : Bool} (h : ¬b = true) : b = false := by
  cases b
  · rfl
  · exact absurd rfl h

theorem noPair_cons₂ (p q : Char → Bool) (a b : Char) (l : List Char) :
    noPair p q (a :: b :: l) = (!(p a && q b) && noPair p q (b :: l)) := rfl

theorem noPair_nil (p q : Char → Bool) : noPair p q [] = true := rfl

theorem noPair_one (p q : Char → Bool) (a : Char) : noPair p q [a] = true := rfl

theorem noPair_tail {p q : Char → Bool} {a : Char} {l : List Char}
    (h : noPair p q (a :: l) = true) : noPair p q l = true := by
  cases l with
  | nil => rfl
  | cons b t =>
    rw [noPair_cons₂, Bool.and_eq_true] at h
    exact h.2

theorem noPair_head {p q : Char → Bool} {a b : Char} {l : List Char}
    (h : noPair p q (a :: b :: l) = true) : (!(p a && q b)) = true := by
  rw [noPair_cons₂, Bool.and_eq_true] at h
  exact h.1

theorem noPair_head? {p q : Char → Bool} {a b : Char} {l : List Char}
    (h : noPair p q (a :: l) = true) (hb : l.head? = some b) :
    (!(p a && q b)) = true := by
  cases l with
  | nil => simp at hb
  | cons x t =>
    simp only [List.head?_cons, Option.some.injEq] at hb
    subst hb
    exact noPair_head h

theorem spacesOk_cons {c : Char} {l : List Char} :
    spacesOk (c :: l) = ((!isPySpace c || c == ' ') && spacesOk l) := rfl

theorem spacesOk_tail {c : Char} {l : List Char} (h : spacesOk (c :: l) = true) :
    spacesOk l = true := by
  rw [spacesOk_cons, Bool.and_eq_true] at h
  exact h.2

theorem spacesOk_head {c : Char} {l : List Char} (h : spacesOk (c :: l) = true)
    (hc : isPySpace c = true) : c = ' ' := by
  rw [spacesOk_cons, Bool.and_eq_true, Bool.or_eq_true] at h
  rcases h.1 with h1 | h1
  · rw [hc] at h1; simp at h1
  · exact eq_of_beq h1

theorem headOk_cons (c : Char) (t : List Char) : headOk (c :: t) = !isPySpace c := rfl

theorem lastOk_single (c : Char) : lastOk [c] = !isPySpace c := rfl

theorem lastOk_cons₂ (c b : Char) (l : List Char) :
    lastOk (c :: b :: l) = lastOk (b :: l) := rfl

theorem lastOk_tail {c : Char} {l : List Char} (h : lastOk (c :: l) = true)
    (hl : l ≠ []) : lastOk l = true := by
  cases l with
  | nil => exact absurd rfl hl
  | cons b t => rw [lastOk_cons₂] at h; exact h

theorem lastOk_cons_of_ne_nil {c : Char} {l : List Char} (hl : l ≠ []) :
    lastOk (c :: l) = lastOk l := by
  cases l with
  | nil => exact absurd rfl hl
  | cons b t => rfl

/-! ## Stage 1: collapseWs -/

theorem collapseWs_nil : collapseWs [] = [] := rfl

theorem collapseWs_cons (c : Char) (l : List Char) :
    collapseWs (c :: l) = collapseStep c (collapseWs l) := rfl

theorem collapseWs_ok (l : List Char) :
    spacesOk (collapseWs l) = true ∧ noWW (collapseWs l) = true := by
  induction l with
  | nil => exact ⟨rfl, rfl⟩
  | cons c t ih =>
    obtain ⟨hs, hw⟩ := ih
    rw [collapseWs_cons]
    unfold collapseStep
    by_cases hc : isPySpace c = true
    · rw [if_pos hc]
      by_cases hh : (collapseWs t).head? == some ' '
      · rw [if_pos hh]; exact ⟨hs, hw⟩
      · rw [if_neg hh]
        constructor
        · rw [spacesOk_cons, Bool.and_eq_true]
          exact ⟨by simp, hs⟩
        · cases hacc : collapseWs t with
          | nil => rfl
          | cons b bt =>
            rw [hacc] at hs hh
            have hb : isPySpace b = false := by
              by_contra hb'
              have hb2 : isPySpace b = true := by
                cases hbv : isPySpace b
                · exact absurd hbv hb'
                · rfl
              have := spacesOk_head hs hb2
              subst this
              simp at hh
            unfold noWW
            rw [noPair_cons₂, Bool.and_eq_true]
            refine ⟨by simp [hb], ?_⟩
            rw [hacc] at hw
            exact hw
    · rw [if_neg hc]
      constructor
      · rw [spacesOk_cons, Bool.and_eq_true]
        refine ⟨by simp [hc], hs⟩
      · cases hacc : collapseWs t with
        | nil => rfl
        | cons b bt =>
          unfold noWW
          rw [noPair_cons₂, Bool.and_eq_true]
          refine ⟨by simp [hc], ?_⟩
          rw [hacc] at hw
          exact hw

theorem collapseWs_fix {l : List Char} (hs : spacesOk l = true)
    (hw : noWW l = true) : collapseWs l = l := by
  induction l with
  | nil => rfl
  | cons c t ih =>
    rw [collapseWs_cons, ih (spacesOk_tail hs) (noPair_tail hw)]
    unfold collapseStep
    by_cases hc : isPySpace c = true
    · rw [if_pos hc]
      have hc' : c = ' ' := spacesOk_head hs hc
      have hth : ¬(t.head? == some ' ') := by
        cases t with
        | nil => simp
        | cons b bt =>
          have hb := noPair_head hw
          rw [hc] at hb
          simp only [Bool.true_and, Bool.not_eq_true'] at hb
          have hsb := spacesOk_tail hs
          intro hcontra
          simp only [List.head?_cons, beq_iff_eq, Option.some.injEq] at hcontra
          rw [hcontra] at hb
          simp [isPySpace] at hb
      rw [if_neg hth, hc']
    · rw [if_neg hc]

/-! ## Stage 2: pyStrip -/

theorem headOk_of_head? {l₁ l₂ : List Char} (h : l₁.head? = l₂.head?)
    (h₂ : headOk l₂ = true) : headOk l₁ = true := by
  cases l₁ with
  | nil => rfl
  | cons c t =>
    cases l₂ with
    | nil => simp at h
    | cons d t₂ =>
      simp only [List.head?_cons, Option.some.injEq] at h
      subst h
      exact h₂

theorem spacesOk_of_sublist {S l : List Char} (h : S.Sublist l)
    (hs : spacesOk l = true) : spacesOk S = true := by
  unfold spacesOk at *
  rw [List.all_eq_true] at *
  exact fun c hc => hs c (h.subset hc)

theorem noPair_dropWhile {p q : Char → Bool} {l : List Char} (r : Char → Bool)
    (h : noPair p q l = true) : noPair p q (l.dropWhile r) = true := by
  induction l with
  | nil => exact h
  | cons c t ih =>
    rw [List.dropWhile_cons]
    by_cases hr : r c = true
    · rw [if_pos hr]
      exact ih (noPair_tail h)
    · rw [if_neg hr]
      exact h

theorem dropWhile_headOk (l : List Char) : headOk (l.dropWhile isPySpace) = true := by
  induction l with
  | nil => rfl
  | cons c t ih =>
    rw [List.dropWhile_cons]
    by_cases hc : isPySpace c = true
    · rw [if_pos hc]; exact ih
    · rw [if_neg hc]
      show (!isPySpace c) = true
      rw [bool_false_of_not hc]
      rfl

theorem dropWhile_fix {l : List Char} (h : headOk l = true) :
    l.dropWhile isPySpace = l := by
  cases l with
  | nil => rfl
  | cons c t =>
    unfold headOk at h
    rw [List.dropWhile_cons, if_neg (by simp [Bool.not_eq_true'] at h; simp [h])]

theorem dropTrailWs_nil : dropTrailWs [] = [] := rfl

theorem dropTrailWs_cons (c : Char) (l : List Char) :
    dropTrailWs (c :: l) =
      if (dropTrailWs l).isEmpty && isPySpace c then [] else c :: dropTrailWs l := rfl

theorem dropTrailWs_head? (l : List Char) :
    dropTrailWs l = [] ∨ (dropTrailWs l).head? = l.head? := by
  cases l with
  | nil => exact Or.inl rfl
  | cons c t =>
    rw [dropTrailWs_cons]
    by_cases h : ((dropTrailWs t).isEmpty && isPySpace c) = true
    · rw [if_pos h]; exact Or.inl rfl
    · rw [if_neg h]; exact Or.inr rfl

theorem dropTrailWs_lastOk (l : List Char) : lastOk (dropTrailWs l) = true := by
  induction l with
  | nil => rfl
  | cons c t ih =>
    rw [dropTrailWs_cons]
    by_cases h : ((dropTrailWs t).isEmpty && isPySpace c) = true
    · rw [if_pos h]; rfl
    · rw [if_neg h]
      cases hdt : dropTrailWs t with
      | nil =>
        rw [hdt] at h
        simp only [List.isEmpty_nil, Bool.true_and] at h
        rw [lastOk_single, Bool.not_eq_true'] at *
        cases hv : isPySpace c
        · rfl
        · exact absurd hv h
      | cons b bt =>
        rw [lastOk_cons_of_ne_nil (by simp)]
        rw [hdt] at ih
        exact ih

theorem dropTrailWs_spacesOk {l : List Char} (hs : spacesOk l = true) :
    spacesOk (dropTrailWs l) = true := by
  induction l with
  | nil => rfl
  | cons c t ih =>
    rw [dropTrailWs_cons]
    by_cases h : ((dropTrailWs t).isEmpty && isPySpace c) = true
    · rw [if_pos h]; rfl
    · rw [if_neg h, spacesOk_cons, Bool.and_eq_true]
      rw [spacesOk_cons, Bool.and_eq_true] at hs
      exact ⟨hs.1, ih hs.2⟩

theorem dropTrailWs_noPair {p q : Char → Bool} {l : List Char}
    (h : noPair p q l = true) : noPair p q (dropTrailWs l) = true := by
  induction l with
  | nil => rfl
  | cons c t ih =>
    rw [dropTrailWs_cons]
    by_cases hc : ((dropTrailWs t).isEmpty && isPySpace c) = true
    · rw [if_pos hc]; rfl
    · rw [if_neg hc]
      have ih' := ih (noPair_tail h)
      cases hdt : dropTrailWs t with
      | nil => exact noPair_one p q c
      | cons b bt =>
        rw [noPair_cons₂, Bool.and_eq_true]
        constructor
        · rcases dropTrailWs_head? t with h1 | h1
          · rw [hdt] at h1; cases h1
          · rw [hdt] at h1
            exact noPair_head? h h1.symm
        · rw [hdt] at ih'
          exact ih'

theorem dropTrailWs_headOk {l : List Char} (h : headOk l = true) :
    headOk (dropTrailWs l) = true := by
  rcases dropTrailWs_head? l with h1 | h1
  · rw [h1]; rfl
  · exact headOk_of_head? h1 h

theorem dropTrailWs_fix {l : List Char} (h : lastOk l = true) :
    dropTrailWs l = l := by
  induction l with
  | nil => rfl
  | cons c t ih =>
    rw [dropTrailWs_cons]
    cases t with
    | nil =>
      rw [lastOk_single, Bool.not_eq_true'] at h
      rw [dropTrailWs_nil]
      simp [h]
    | cons d t' =>
      rw [lastOk_cons₂] at h
      rw [ih h]
      simp

theorem pyStrip_ok {l : List Char} (hs : spacesOk l = true) (hw : noWW l = true) :
    spacesOk (pyStrip l) = true ∧ noWW (pyStrip l) = true ∧
    headOk (pyStrip l) = true ∧ lastOk (pyStrip l) = true := by
  unfold pyStrip
  refine ⟨?_, ?_, ?_, dropTrailWs_lastOk _⟩
  · exact dropTrailWs_spacesOk (spacesOk_of_sublist (List.dropWhile_sublist _) hs)
  · exact dropTrailWs_noPair (noPair_dropWhile _ hw)
  · exact dropTrailWs_headOk (dropWhile_headOk l)

theorem pyStrip_fix {l : List Char} (h1 : headOk l = true) (h2 : lastOk l = true) :
    pyStrip l = l := by
  unfold pyStrip
  rw [dropWhile_fix h1, dropTrailWs_fix h2]

/-! ## Stage 3: subWsComma -/

theorem subWsComma_nil : subWsComma [] = [] := rfl

theorem subWsComma_cons (c : Char) (l : List Char) :
    subWsComma (c :: l) = subWsCommaStep c (subWsComma l) := rfl

theorem subWsComma_head? (l : List Char) :
    (subWsComma l).head? = l.head? ∨ (subWsComma l).head? = some ',' := by
  cases l with
  | nil => exact Or.inl rfl
  | cons c t =>
    rw [subWsComma_cons]
    unfold subWsCommaStep
    by_cases hc : isPySpace c = true
    · rw [if_pos hc]
      by_cases hh : ((subWsComma t).head? == some ',') = true
      · rw [if_pos hh]
        exact Or.inr (by simpa using hh)
      · rw [if_neg hh]
        exact Or.inl rfl
    · rw [if_neg hc]
      exact Or.inl rfl

theorem subWsComma_ne_nil {l : List Char} (h : l ≠ []) : subWsComma l ≠ [] := by
  cases l with
  | nil => exact absurd rfl h
  | cons c t =>
    rw [subWsComma_cons]
    unfold subWsCommaStep
    by_cases hc : isPySpace c = true
    · rw [if_pos hc]
      by_cases hh : ((subWsComma t).head? == some ',') = true
      · rw [if_pos hh]
        intro he
        rw [he] at hh
        simp at hh
      · rw [if_neg hh]; simp
    · rw [if_neg hc]; simp

theorem subWsComma_ok {l : List Char} (hs : spacesOk l = true) (hw : noWW l = true)
    (hl : lastOk l = true) :
    spacesOk (subWsComma l) = true ∧ noWW (subWsComma l) = true ∧
    noWsC (subWsComma l) = true ∧ lastOk (subWsComma l) = true := by
  induction l with
  | nil => exact ⟨rfl, rfl, rfl, rfl⟩
  | cons c t ih =>
    have hlt : lastOk t = true := by
      cases t with
      | nil => rfl
      | cons d t' => rw [lastOk_cons₂] at hl; exact hl
    obtain ⟨ihs, ihw, ihc, ihl⟩ := ih (spacesOk_tail hs) (noPair_tail hw) hlt
    rw [subWsComma_cons]
    unfold subWsCommaStep
    rw [spacesOk_cons, Bool.and_eq_true] at hs
    by_cases hc : isPySpace c = true
    · rw [if_pos hc]
      by_cases hh : ((subWsComma t).head? == some ',') = true
      · rw [if_pos hh]
        exact ⟨ihs, ihw, ihc, ihl⟩
      · rw [if_neg hh]
        cases t with
        | nil =>
          rw [subWsComma_nil]
          refine ⟨by rw [spacesOk_cons, Bool.and_eq_true]; exact ⟨hs.1, rfl⟩,
            noPair_one _ _ _, noPair_one _ _ _, ?_⟩
          rw [lastOk_single]
          rw [lastOk_single] at hl
          exact hl
        | cons d t' =>
          have hne : subWsComma (d :: t') ≠ [] := subWsComma_ne_nil (by simp)
          cases hacc : subWsComma (d :: t') with
          | nil => exact absurd hacc hne
          | cons b bt =>
            have hbd : b = d ∨ b = ',' := by
              rcases subWsComma_head? (d :: t') with h1 | h1 <;> rw [hacc] at h1 <;>
                simp only [List.head?_cons, Option.some.injEq] at h1
              · exact Or.inl h1
              · exact Or.inr h1
            have hbne : ¬b = ',' := by
              intro hb
              rw [hacc, hb] at hh
              simp at hh
            have hbd' : b = d := by
              rcases hbd with h1 | h1
              · exact h1
              · exact absurd h1 hbne
            have hdnw : isPySpace d = false := by
              have := noPair_head hw
              rw [hc] at this
              simpa using this
            rw [hacc] at ihs ihw ihc ihl
            refine ⟨?_, ?_, ?_, ?_⟩
            · rw [spacesOk_cons, Bool.and_eq_true]; exact ⟨hs.1, ihs⟩
            · rw [noWW, noPair_cons₂, Bool.and_eq_true]
              refine ⟨by rw [hbd', hdnw]; simp, ihw⟩
            · rw [noWsC, noPair_cons₂, Bool.and_eq_true]
              refine ⟨by simp [hbne], ihc⟩
            · rw [lastOk_cons₂]
              exact ihl
    · rw [if_neg hc]
      cases hacc : subWsComma t with
      | nil =>
        refine ⟨by rw [spacesOk_cons, Bool.and_eq_true]; exact ⟨hs.1, rfl⟩,
          noPair_one _ _ _, noPair_one _ _ _, ?_⟩
        rw [lastOk_single, bool_false_of_not hc]
        rfl
      | cons b bt =>
        rw [hacc] at ihs ihw ihc ihl
        refine ⟨?_, ?_, ?_, ?_⟩
        · rw [spacesOk_cons, Bool.and_eq_true]; exact ⟨hs.1, ihs⟩
        · rw [noWW, noPair_cons₂, Bool.and_eq_true]
          refine ⟨by rw [bool_false_of_not hc]; simp, ihw⟩
        · rw [noWsC, noPair_cons₂, Bool.and_eq_true]
          refine ⟨by rw [bool_false_of_not hc]; simp, ihc⟩
        · rw [lastOk_cons₂]
          exact ihl

theorem subWsComma_headOk {l : List Char} (hh : headOk l = true) :
    headOk (subWsComma l) = true := by
  rcases subWsComma_head? l with h1 | h1
  · exact headOk_of_head? h1 hh
  · cases hsw : subWsComma l with
    | nil => rfl
    | cons b bt =>
      rw [hsw] at h1
      simp only [List.head?_cons, Option.some.injEq] at h1
      unfold headOk
      rw [h1]
      rfl

theorem subWsComma_fix {l : List Char} (h : noWsC l = true) : subWsComma l = l := by
  induction l with
  | nil => rfl
  | cons c t ih =>
    rw [subWsComma_cons, ih (noPair_tail h)]
    unfold subWsCommaStep
    by_cases hc : isPySpace c = true
    · rw [if_pos hc]
      have hth : ¬(t.head? == some ',') = true := by
        cases t with
        | nil => simp
        | cons d t' =>
          have hd := noPair_head h
          rw [hc] at hd
          simp only [Bool.true_and, Bool.not_eq_true'] at hd
          simp only [List.head?_cons, beq_iff_eq, Option.some.injEq]
          intro hcontra
          rw [hcontra] at hd
          simp at hd
      rw [if_neg hth]
    · rw [if_neg hc]

/-! ## Stage 4: subCommaWs -/

theorem subCommaWsAux_nil (st : Nat) : subCommaWsAux st [] = [] := rfl

theorem subCommaWsAux_cons (st : Nat) (c : Char) (t : List Char) :
    subCommaWsAux st (c :: t) =
      if st == 1 && isPySpace c then ' ' :: subCommaWsAux 2 t
      else if st == 2 && isPySpace c then subCommaWsAux 2 t
      else if c == ',' then ',' :: subCommaWsAux 1 t
      else c :: subCommaWsAux 0 t := rfl

theorem subCommaWsAux_head0 (l : List Char) :
    (subCommaWsAux 0 l).head? = l.head? := by
  cases l with
  | nil => rfl
  | cons c t =>
    rw [subCommaWsAux_cons]
    have e1 : ¬((0 == 1 && isPySpace c) = true) := by simp
    have e2 : ¬((0 == 2 && isPySpace c) = true) := by simp
    rw [if_neg e1, if_neg e2]
    by_cases hc : (c == ',') = true
    · rw [if_pos hc]
      have := eq_of_beq hc
      subst this
      rfl
    · rw [if_neg hc]
      rfl

theorem subCommaWsAux_head2 {l : List Char} (hh : headOk l = true) :
    (subCommaWsAux 2 l).head? = l.head? := by
  cases l with
  | nil => rfl
  | cons c t =>
    have hcw : isPySpace c = false := by
      rw [headOk_cons, Bool.not_eq_true'] at hh
      exact hh
    rw [subCommaWsAux_cons]
    have e1 : ¬((2 == 1 && isPySpace c) = true) := by simp
    have e2 : ¬((2 == 2 && isPySpace c) = true) := by simp [hcw]
    rw [if_neg e1, if_neg e2]
    by_cases hc : (c == ',') = true
    · rw [if_pos hc]
      have := eq_of_beq hc
      subst this
      rfl
    · rw [if_neg hc]
      rfl

theorem headOk_tail_of_ws {c : Char} {t : List Char} (hw : noWW (c :: t) = true)
    (hc : isPySpace c = true) : headOk t = true := by
  cases t with
  | nil => rfl
  | cons d t' =>
    have hd := noPair_head hw
    rw [hc] at hd
    simp only [Bool.true_and, Bool.not_eq_true'] at hd
    rw [headOk_cons, hd]
    rfl

theorem subCommaWsAux_ok {l : List Char} :
    ∀ st, spacesOk l = true → noWW l = true → noWsC l = true → lastOk l = true →
    (st = 2 → headOk l = true) →
    spacesOk (subCommaWsAux st l) = true ∧ noWW (subCommaWsAux st l) = true ∧
    noWsC (subCommaWsAux st l) = true ∧ lastOk (subCommaWsAux st l) = true := by
  induction l with
  | nil => exact fun st _ _ _ _ _ => ⟨rfl, rfl, rfl, rfl⟩
  | cons c t ih =>
    intro st hs hw hc hl hst
    have hlt : lastOk t = true := by
      cases t with
      | nil => rfl
      | cons d t' => rw [lastOk_cons₂] at hl; exact hl
    have hts : spacesOk t = true := spacesOk_tail hs
    have htw : noWW t = true := noPair_tail hw
    have htc : noWsC t = true := noPair_tail hc
    rw [spacesOk_cons, Bool.and_eq_true] at hs
    rw [subCommaWsAux_cons]
    by_cases h1 : (st == 1 && isPySpace c) = true
    · rw [if_pos h1]
      rw [Bool.and_eq_true, beq_iff_eq] at h1
      obtain ⟨hst1, hcw⟩ := h1
      have hht : headOk t = true := headOk_tail_of_ws hw hcw
      have htn : t ≠ [] := by
        intro he
        subst he
        rw [lastOk_single, hcw] at hl
        simp at hl
      obtain ⟨i2s, i2w, i2c, i2l⟩ := ih 2 hts htw htc hlt (fun _ => hht)
      have hhead : (subCommaWsAux 2 t).head? = t.head? := subCommaWsAux_head2 hht
      cases ht : t with
      | nil => exact absurd ht htn
      | cons d t' =>
        rw [ht] at hhead hht
        cases haux : subCommaWsAux 2 (d :: t') with
        | nil =>
          rw [haux] at hhead
          simp at hhead
        | cons b bt =>
          rw [haux] at hhead
          simp only [List.head?_cons, Option.some.injEq] at hhead
          subst hhead
          rw [ht] at i2s i2w i2c i2l
          rw [haux] at i2s i2w i2c i2l
          have hdw : isPySpace b = false := by
            rw [headOk_cons, Bool.not_eq_true'] at hht
            exact hht
          have hdc : ¬b = ',' := by
            have hc2 : noPair isPySpace (fun x => x == ',') (c :: b :: t') = true := by
              have hc3 : noPair isPySpace (fun x => x == ',') (c :: t) = true := hc
              rw [ht] at hc3
              exact hc3
            have := noPair_head hc2
            rw [hcw] at this
            simp only [Bool.true_and, Bool.not_eq_true'] at this
            intro he
            rw [he] at this
            simp at this
          refine ⟨?_, ?_, ?_, ?_⟩
          · rw [spacesOk_cons, Bool.and_eq_true]
            exact ⟨by simp, i2s⟩
          · rw [noWW, noPair_cons₂, Bool.and_eq_true]
            exact ⟨by rw [hdw]; simp, i2w⟩
          · rw [noWsC, noPair_cons₂, Bool.and_eq_true]
            refine ⟨?_, i2c⟩
            have : (b == ',') = false := by
              cases hv : b == ','
              · rfl
              · exact absurd (eq_of_beq hv) hdc
            rw [this]
            simp
          · rw [lastOk_cons₂]
            exact i2l
    · rw [if_neg h1]
      by_cases h2 : (st == 2 && isPySpace c) = true
      · exfalso
        rw [Bool.and_eq_true, beq_iff_eq] at h2
        have := hst h2.1
        rw [headOk_cons, h2.2] at this
        simp at this
      · rw [if_neg h2]
        by_cases h3 : (c == ',') = true
        · rw [if_pos h3]
          have hcc := eq_of_beq h3
          obtain ⟨i1s, i1w, i1c, i1l⟩ := ih 1 hts htw htc hlt (by intro h; cases h)
          refine ⟨?_, ?_, ?_, ?_⟩
          · rw [spacesOk_cons, Bool.and_eq_true]
            refine ⟨by simp [isPySpace], i1s⟩
          · cases haux : subCommaWsAux 1 t with
            | nil => rfl
            | cons b bt =>
              rw [noWW, noPair_cons₂, Bool.and_eq_true]
              rw [haux] at i1w
              refine ⟨by simp [isPySpace], i1w⟩
          · cases haux : subCommaWsAux 1 t with
            | nil => rfl
            | cons b bt =>
              rw [noWsC, noPair_cons₂, Bool.and_eq_true]
              rw [haux] at i1c
              refine ⟨by simp [isPySpace], i1c⟩
          · cases haux : subCommaWsAux 1 t with
            | nil => rw [lastOk_single]; simp [isPySpace]
            | cons b bt =>
              rw [lastOk_cons_of_ne_nil (by simp)]
              rw [haux] at i1l
              exact i1l
        · rw [if_neg h3]
          obtain ⟨i0s, i0w, i0c, i0l⟩ := ih 0 hts htw htc hlt (by intro h; cases h)
          have hhead := subCommaWsAux_head0 t
          refine ⟨?_, ?_, ?_, ?_⟩
          · rw [spacesOk_cons, Bool.and_eq_true]
            exact ⟨hs.1, i0s⟩
          · cases haux : subCommaWsAux 0 t with
            | nil => rfl
            | cons b bt =>
              rw [noWW, noPair_cons₂, Bool.and_eq_true]
              rw [haux] at i0w hhead
              refine ⟨?_, i0w⟩
              exact noPair_head? hw hhead.symm
          · cases haux : subCommaWsAux 0 t with
            | nil => rfl
            | cons b bt =>
              rw [noWsC, noPair_cons₂, Bool.and_eq_true]
              rw [haux] at i0c hhead
              refine ⟨?_, i0c⟩
              have hc2 : noPair isPySpace (fun x => x == ',') (c :: t) = true := hc
              have h4 := noPair_head? hc2 hhead.symm
              exact h4
          · cases ht : t with
            | nil =>
              rw [subCommaWsAux_nil, lastOk_single]
              rw [ht, lastOk_single] at hl
              exact hl
            | cons d t' =>
              rw [ht] at hhead
              cases haux : subCommaWsAux 0 (d :: t') with
              | nil =>
                rw [haux] at hhead
                simp at hhead
              | cons b bt =>
                rw [lastOk_cons_of_ne_nil (by simp)]
                rw [ht, haux] at i0l
                exact i0l

theorem subCommaWsAux_fix {l : List Char} :
    ∀ st, spacesOk l = true → noWW l = true → (st = 2 → headOk l = true) →
    subCommaWsAux st l = l := by
  induction l with
  | nil => exact fun _ _ _ _ => rfl
  | cons c t ih =>
    intro st hs hw hst
    have hts : spacesOk t = true := spacesOk_tail hs
    have htw : noWW t = true := noPair_tail hw
    rw [subCommaWsAux_cons]
    by_cases h1 : (st == 1 && isPySpace c) = true
    · rw [if_pos h1]
      rw [Bool.and_eq_true, beq_iff_eq] at h1
      have hc' : c = ' ' := spacesOk_head hs h1.2
      have hht : headOk t = true := headOk_tail_of_ws hw h1.2
      rw [ih 2 hts htw (fun _ => hht), hc']
    · rw [if_neg h1]
      by_cases h2 : (st == 2 && isPySpace c) = true
      · exfalso
        rw [Bool.and_eq_true, beq_iff_eq] at h2
        have := hst h2.1
        rw [headOk_cons, h2.2] at this
        simp at this
      · rw [if_neg h2]
        by_cases h3 : (c == ',') = true
        · rw [if_pos h3, ih 1 hts htw (by intro h; cases h), eq_of_beq h3]
        · rw [if_neg h3, ih 0 hts htw (by intro h; cases h)]

/-! ## canon: production, fixed points, idempotence -/

theorem canon_parts {l : List Char} (h : canon l = true) :
    spacesOk l = true ∧ noWW l = true ∧ noWsC l = true ∧
    headOk l = true ∧ lastOk l = true := by
  unfold canon at h
  simp only [Bool.and_eq_true] at h
  exact ⟨h.1.1.1.1, h.1.1.1.2, h.1.1.2, h.1.2, h.2⟩

theorem canon_intro {l : List Char} (h1 : spacesOk l = true) (h2 : noWW l = true)
    (h3 : noWsC l = true) (h4 : headOk l = true) (h5 : lastOk l = true) :
    canon l = true := by
  unfold canon
  simp only [Bool.and_eq_true]
  exact ⟨⟨⟨⟨h1, h2⟩, h3⟩, h4⟩, h5⟩

theorem normList_canon (l : List Char) : canon (normList l) = true := by
  unfold normList
  obtain ⟨c1, c2⟩ := collapseWs_ok l
  obtain ⟨p1, p2, p3, p4⟩ := pyStrip_ok c1 c2
  obtain ⟨w1, w2, w3, w4⟩ := subWsComma_ok p1 p2 p4
  have w5 : headOk (subWsComma (pyStrip (collapseWs l))) = true := subWsComma_headOk p3
  unfold subCommaWs
  obtain ⟨a1, a2, a3, a4⟩ := subCommaWsAux_ok 0 w1 w2 w3 w4 (by intro h; cases h)
  refine canon_intro a1 a2 a3 ?_ a4
  exact headOk_of_head? (subCommaWsAux_head0 _) w5

theorem canon_fix {l : List Char} (h : canon l = true) : normList l = l := by
  obtain ⟨h1, h2, h3, h4, h5⟩ := canon_parts h
  unfold normList subCommaWs
  rw [collapseWs_fix h1 h2, pyStrip_fix h4 h5, subWsComma_fix h3,
    subCommaWsAux_fix 0 h1 h2 (by intro h; cases h)]

theorem normList_idem (l : List Char) : normList (normList l) = normList l :=
  canon_fix (normList_canon l)

theorem pyStrip_of_canon {l : List Char} (h : canon l = true) : pyStrip l = l := by
  obtain ⟨_, _, _, h4, h5⟩ := canon_parts h
  exact pyStrip_fix h4 h5

/-! ## dedupFirst and the dedup loop -/

theorem dedupFirst_nil : dedupFirst [] = [] := by rw [dedupFirst]

theorem dedupFirst_cons (a : List Char) (l : List (List Char)) :
    dedupFirst (a :: l) = a :: dedupFirst (l.filter (fun b => !(b == a))) := by
  rw [dedupFirst]

theorem mem_dedupFirst {x : List Char} : ∀ {l : List (List Char)},
    x ∈ dedupFirst l ↔ x ∈ l := by
  intro l
  induction l using dedupFirst.induct with
  | case1 => rw [dedupFirst_nil]
  | case2 a t ih =>
    rw [dedupFirst_cons]
    constructor
    · intro h
      rcases List.mem_cons.1 h with h1 | h1
      · exact h1 ▸ List.mem_cons_self a t
      · have := ih.1 h1
        exact List.mem_cons.2 (Or.inr (List.mem_of_mem_filter this))
    · intro h
      rcases List.mem_cons.1 h with h1 | h1
      · exact h1 ▸ List.mem_cons_self _ _
      · by_cases hxa : x = a
        · exact hxa ▸ List.mem_cons_self _ _
        · refine List.mem_cons.2 (Or.inr (ih.2 ?_))
          refine List.mem_filter.2 ⟨h1, ?_⟩
          simp [hxa]

theorem nodup_dedupFirst : ∀ (l : List (List Char)), (dedupFirst l).Nodup := by
  intro l
  induction l using dedupFirst.induct with
  | case1 => rw [dedupFirst_nil]; exact List.nodup_nil
  | case2 a t ih =>
    rw [dedupFirst_cons]
    refine List.nodup_cons.2 ⟨?_, ih⟩
    intro hmem
    have := mem_dedupFirst.1 hmem
    have := (List.mem_filter.1 this).2
    simp at this

theorem dedupFirst_sublist : ∀ (l : List (List Char)), (dedupFirst l).Sublist l := by
  intro l
  induction l using dedupFirst.induct with
  | case1 => rw [dedupFirst_nil]
  | case2 a t ih =>
    rw [dedupFirst_cons]
    exact List.Sublist.cons₂ a (ih.trans (List.filter_sublist t))

theorem uniqAux_eq_dedupFirst : ∀ (l : List (List Char)) (seen : List (List Char)),
    uniqAux seen l =
      dedupFirst ((l.map normList).filter
        (fun x => !x.isEmpty && !seen.contains x)) := by
  intro l
  induction l with
  | nil =>
    intro seen
    rw [List.map_nil, List.filter_nil, dedupFirst_nil]
    rfl
  | cons a rest ih =>
    intro seen
    show (if !(normList a).isEmpty && !seen.contains (normList a)
          then normList a :: uniqAux (normList a :: seen) rest
          else uniqAux seen rest) = _
    rw [List.map_cons, List.filter_cons]
    by_cases hp : (!(normList a).isEmpty && !seen.contains (normList a)) = true
    · rw [if_pos hp, if_pos hp, dedupFirst_cons, ih (normList a :: seen)]
      congr 1
      rw [List.filter_filter]
      congr 1
      apply List.filter_congr
      intro x _
      show (!x.isEmpty && !(normList a :: seen).contains x) =
        ((!(x == normList a)) && (!x.isEmpty && !seen.contains x))
      rw [List.contains_cons]
      cases x.isEmpty <;> cases seen.contains x <;> cases x == normList a <;> rfl
    · rw [if_neg hp, if_neg hp, ih seen]

theorem extractUniqueL_eq_dedupFirst (t : List Char) :
    extractUniqueL t =
      dedupFirst (((rawCandidates t).map normList).filter (fun x => !x.isEmpty)) := by
  unfold extractUniqueL
  rw [uniqAux_eq_dedupFirst]
  congr 1
  apply List.filter_congr
  intro x _
  show (!x.isEmpty && !List.contains [] x) = (!x.isEmpty)
  cases x.isEmpty <;> rfl

theorem uniqAux_mem {x : List Char} : ∀ {l seen : List (List Char)},
    x ∈ uniqAux seen l → ∃ c ∈ l, x = normList c ∧ x ≠ [] := by
  intro l
  induction l with
  | nil => intro seen h; cases h
  | cons a rest ih =>
    intro seen h
    revert h
    show x ∈ (if !(normList a).isEmpty && !seen.contains (normList a)
          then normList a :: uniqAux (normList a :: seen) rest
          else uniqAux seen rest) → _
    by_cases hp : (!(normList a).isEmpty && !seen.contains (normList a)) = true
    · rw [if_pos hp]
      intro h
      rcases List.mem_cons.1 h with h1 | h1
      · refine ⟨a, List.mem_cons_self _ _, h1, ?_⟩
        rw [Bool.and_eq_true] at hp
        intro he
        rw [← h1, he] at hp
        simp at hp
      · obtain ⟨c, hc, he, hne⟩ := ih h1
        exact ⟨c, List.mem_cons.2 (Or.inr hc), he, hne⟩
    · rw [if_neg hp]
      intro h
      obtain ⟨c, hc, he, hne⟩ := ih h
      exact ⟨c, List.mem_cons.2 (Or.inr hc), he, hne⟩

/-! ## Seed generation -/

theorem natDigitsGo_length_pos (fuel n : Nat) : 1 ≤ (natDigitsGo fuel n).length := by
  cases fuel with
  | zero => simp [natDigitsGo]
  | succ f =>
    unfold natDigitsGo
    by_cases h : n < 10
    · rw [if_pos h]; simp
    · rw [if_neg h]; simp

theorem natDigitsGo_length_le : ∀ (fuel n k : Nat), 1 ≤ k → n < 10 ^ k →
    (natDigitsGo fuel n).length ≤ k := by
  intro fuel
  induction fuel with
  | zero => intro n k h1 _; simpa [natDigitsGo] using h1
  | succ f ih =>
    intro n k h1 h2
    unfold natDigitsGo
    by_cases hn : n < 10
    · rw [if_pos hn]; simpa using h1
    · rw [if_neg hn]
      have hk : 2 ≤ k := by
        by_contra hk'
        have hke : k = 1 := by omega
        rw [hke, pow_one] at h2
        omega
      have hdiv : n / 10 < 10 ^ (k - 1) := by
        rw [Nat.div_lt_iff_lt_mul (by norm_num)]
        calc n < 10 ^ k := h2
          _ = 10 ^ (k - 1) * 10 := by
            rw [← pow_succ]
            congr 1
            omega
      have := ih (n / 10) (k - 1) (by omega) hdiv
      simp only [List.length_append, List.length_cons, List.length_nil]
      omega

theorem pad5_length {z : Int} (h0 : 0 ≤ z) (h1 : z < 100000) :
    (pad5 z).length = 5 := by
  unfold pad5
  have hneg : ¬z < 0 := by omega
  rw [if_neg hneg]
  have hle : (natDigits z.toNat).length ≤ 5 := by
    apply natDigitsGo_length_le
    · omega
    · have : z.toNat < 100000 := by omega
      simpa using this
  have hpos : 1 ≤ (natDigits z.toNat).length := natDigitsGo_length_pos _ _
  show (List.nil ++ List.replicate (5 - ((natDigits z.natAbs).length + List.length []))
    '0' ++ natDigits z.natAbs).length = 5
  have hab : z.natAbs = z.toNat := by omega
  rw [hab]
  simp only [List.nil_append, List.length_append, List.length_replicate,
    List.length_nil]
  omega

theorem seeds_index_iff {start step : Int} (h : 0 < step) (i : Nat) :
    i < ((96200 - start + step - 1) / step).toNat ↔
      start + (i : Int) * step ≤ 96199 := by
  rw [Int.lt_toNat, ← Int.add_one_le_iff, Int.le_ediv_iff_mul_le h, add_one_mul]
  constructor
  · intro hx; linarith
  · intro hx; linarith

theorem generate_pos_spec {step : Int} (h : 0 < step) (jitter : Bool) :
    ∃ l, generate_ca_zip_seeds step jitter = some l ∧
      (∀ i : Nat,
        l[i]? = some (pad5 ((if jitter then 90000 + step / 2 else 90000) + (i : Int) * step)) ↔
        (if jitter then 90000 + step / 2 else 90000) + (i : Int) * step ≤ 96199) ∧
      (∀ s ∈ l, s.length = 5) := by
  have hne : ¬step = 0 := by omega
  have hgen : generate_ca_zip_seeds step jitter =
      some ((List.range
          ((96200 - (if jitter then 90000 + step / 2 else 90000) + step - 1) / step).toNat).map
        (fun i : Nat =>
          pad5 ((if jitter then 90000 + step / 2 else 90000) + (i : Int) * step))) := by
    simp only [generate_ca_zip_seeds, pyRangeLen, CA_ZIP_MIN, CA_ZIP_MAX]
    rw [if_neg hne, if_pos h]
    rfl
  set start : Int := if jitter then 90000 + step / 2 else 90000 with hstart
  have hstart90 : 90000 ≤ start := by
    rw [hstart]
    cases jitter
    · simp
    · simp only [if_true]
      have : 0 ≤ step / 2 := Int.ediv_nonneg (by omega) (by norm_num)
      omega
  refine ⟨_, hgen, ?_, ?_⟩
  · intro i
    by_cases hi : i < ((96200 - start + step - 1) / step).toNat
    · rw [List.getElem?_map, List.getElem?_range hi]
      constructor
      · intro _
        exact (seeds_index_iff h i).1 hi
      · intro _
        rfl
    · have hlen : ((List.range ((96200 - start + step - 1) / step).toNat).map
          (fun i : Nat => pad5 (start + (i : Int) * step))).length ≤ i := by
        simp only [List.length_map, List.length_range]
        omega
      rw [List.getElem?_eq_none hlen]
      constructor
      · intro hcontra; cases hcontra
      · intro hcontra
        exact absurd ((seeds_index_iff h i).2 hcontra) hi
  · intro s hs
    rw [List.mem_map] at hs
    obtain ⟨i, hi, he⟩ := hs
    rw [List.mem_range] at hi
    have hub : start + (i : Int) * step ≤ 96199 := (seeds_index_iff h i).1 hi
    have hlb : (0 : Int) ≤ (i : Int) * step := by positivity
    rw [← he]
    exact pad5_length (by omega) (by omega)

theorem generate_degenerate (step : Int) (j : Bool) (h : step ≤ 0) :
    (step = 0 → generate_ca_zip_seeds step j = none) ∧
    (step < 0 → generate_ca_zip_seeds step j = some []) := by
  constructor
  · intro h0
    subst h0
    rfl
  · intro hneg
    have hne : ¬step = 0 := by omega
    have hnp : ¬0 < step := by omega
    set start : Int := if j then 90000 + step / 2 else 90000 with hstart
    have hstart90 : start ≤ 90000 := by
      rw [hstart]
      cases j
      · simp
      · simp only [if_true]
        have h2 : step / 2 ≤ 0 / 2 := Int.ediv_le_ediv (by norm_num) (by omega)
        simp only [Int.zero_ediv] at h2
        omega
    have hq : (start - (96199 + 1) + -step - 1) / -step ≤ 0 := by
      have h1 : (start - (96199 + 1) + -step - 1) / -step < 1 := by
        rw [Int.ediv_lt_iff_lt_mul (by omega)]
        omega
      omega
    have hn : ((start - (96199 + 1) + -step - 1) / -step).toNat = 0 :=
      Int.toNat_eq_zero.2 hq
    have hgen : generate_ca_zip_seeds step j =
        some ((List.range ((start - (96199 + 1) + -step - 1) / -step).toNat).map
          (fun i : Nat => pad5 (start + (i : Int) * step))) := by
      simp only [generate_ca_zip_seeds, pyRangeLen, CA_ZIP_MIN, CA_ZIP_MAX, hstart]
      rw [if_neg hne, if_neg hnp]
      rfl
    rw [hgen, hn]
    rfl

/-! ## The store -/

theorem string_eta (s : String) : (⟨s.data⟩ : String) = s := by
  cases s
  rfl

theorem canon_of_norm_fix {s : String} (h : norm s = s) : canon s.data = true := by
  have hd : normList s.data = s.data := congrArg String.data h
  rw [← hd]
  exact normList_canon _

theorem pyStripS_of_norm_fix {s : String} (h : norm s = s) : pyStripS s = s := by
  unfold pyStripS
  rw [pyStrip_of_canon (canon_of_norm_fix h)]

theorem isEmpty_false_of_ne {s : String} (h : s ≠ "") : s.isEmpty = false := by
  cases hv : s.isEmpty
  · rfl
  · exact absurd ((String.isEmpty_iff s).1 hv) h

theorem map_norm_fixed {l : List String} (h : ∀ a ∈ l, norm a = a) :
    l.map norm = l := by
  rw [List.map_congr_left h]
  exact List.map_id l

theorem loadSeen_fold : ∀ (addrs acc : List String),
    addrs.Nodup → (∀ a ∈ addrs, pyStripS a = a ∧ a ≠ "") →
    (∀ a ∈ addrs, a ∉ acc) →
    (addrs.foldl
      (fun seen ln =>
        let l := pyStripS ln
        if !l.isEmpty then setAdd seen l else seen) acc) = acc ++ addrs := by
  intro addrs
  induction addrs with
  | nil => intro acc _ _ _; simp
  | cons a rest ih =>
    intro acc hnd hmem hacc
    obtain ⟨hfix, hne⟩ := hmem a (List.mem_cons_self _ _)
    rw [List.foldl_cons]
    have hstep :
        (let l := pyStripS a
         if !l.isEmpty then setAdd acc l else acc) = acc ++ [a] := by
      show (if !(pyStripS a).isEmpty then setAdd acc (pyStripS a) else acc) = acc ++ [a]
      rw [hfix, isEmpty_false_of_ne hne]
      show setAdd acc a = acc ++ [a]
      unfold setAdd
      rw [if_neg (hacc a (List.mem_cons_self _ _))]
    have hnotin : ∀ b ∈ rest, b ∉ acc ++ [a] := by
      intro b hb hbmem
      rcases List.mem_append.1 hbmem with h1 | h1
      · exact hacc b (List.mem_cons.2 (Or.inr hb)) h1
      · rcases List.mem_singleton.1 h1 with rfl
        exact (List.nodup_cons.1 hnd).1 hb
    rw [hstep, ih (acc ++ [a]) (List.nodup_cons.1 hnd).2
      (fun b hb => hmem b (List.mem_cons.2 (Or.inr hb))) hnotin, List.append_assoc]
    rfl

theorem foldl_setAdd_norm : ∀ (addrs acc : List String),
    addrs.Nodup → (∀ a ∈ addrs, norm a = a) → (∀ a ∈ addrs, a ∉ acc) →
    (addrs.foldl (fun s a => setAdd s (norm a)) acc) = acc ++ addrs := by
  intro addrs
  induction addrs with
  | nil => intro acc _ _ _; simp
  | cons a rest ih =>
    intro acc hnd hfix hacc
    rw [List.foldl_cons, hfix a (List.mem_cons_self _ _)]
    have hstep : setAdd acc a = acc ++ [a] := by
      unfold setAdd
      rw [if_neg (hacc a (List.mem_cons_self _ _))]
    have hnotin : ∀ b ∈ rest, b ∉ acc ++ [a] := by
      intro b hb hbmem
      rcases List.mem_append.1 hbmem with h1 | h1
      · exact hacc b (List.mem_cons.2 (Or.inr hb)) h1
      · rcases List.mem_singleton.1 h1 with rfl
        exact (List.nodup_cons.1 hnd).1 hb
    rw [hstep, ih (acc ++ [a]) (List.nodup_cons.1 hnd).2
      (fun b hb => hfix b (List.mem_cons.2 (Or.inr hb))) hnotin, List.append_assoc]
    rfl

theorem mergeNew_init {addrs : List String} (hnd : addrs.Nodup)
    (hfix : ∀ a ∈ addrs, norm a = a) :
    mergeNew initStore addrs = ⟨"address" :: addrs, addrs⟩ := by
  have hfilter : addrs.filter (fun a => !List.contains [] a) = addrs :=
    List.filter_eq_self.2 (fun a _ => rfl)
  show Store.mk
      (["address"] ++ (addrs.filter (fun a => !List.contains [] a)).map norm)
      ((addrs.filter (fun a => !List.contains [] a)).foldl
        (fun s a => setAdd s (norm a)) []) = _
  rw [hfilter, map_norm_fixed hfix,
    foldl_setAdd_norm addrs [] hnd hfix (fun a _ h => (List.not_mem_nil a) h)]
  rfl

theorem mergeNew_already_seen {st : Store} {a : String} (h : a ∈ st.seen) :
    mergeNew st [a] = st := by
  have hcont : st.seen.contains a = true := List.elem_eq_true_of_mem h
  have hfilter : [a].filter (fun x => !st.seen.contains x) = [] := by
    rw [List.filter_cons, hcont]
    rfl
  show Store.mk
      (st.file ++ ([a].filter (fun x => !st.seen.contains x)).map norm)
      (([a].filter (fun x => !st.seen.contains x)).foldl
        (fun s x => setAdd s (norm x)) st.seen) = st
  rw [hfilter]
  show Store.mk (st.file ++ []) st.seen = st
  rw [List.append_nil]

/-! ## The per-seed loop -/

theorem runLoop_length (submitRes : String → Bool) (panelFor : String → String) :
    ∀ (seeds : List String) (st : Store),
    (runLoop submitRes panelFor st seeds).length = seeds.length := by
  intro seeds
  induction seeds with
  | nil => intro st; rfl
  | cons z rest ih =>
    intro st
    show ((seedStep submitRes (panelFor z) st z).1 ::
      runLoop submitRes panelFor (seedStep submitRes (panelFor z) st z).2 rest).length = _
    rw [List.length_cons, ih]
    rfl

theorem seedStep_fallback (submitRes : String → Bool) (panel : String)
    (st : Store) (z : String) (h : submitRes z = false) :
    (seedStep submitRes panel st z).1.attempts = [z, z ++ ", CA"] ∧
    (submitRes (z ++ ", CA") = false →
      (seedStep submitRes panel st z).1.mode = "failed") ∧
    (panel = "" →
      (seedStep submitRes panel st z).1.found = 0 ∧
      (seedStep submitRes panel st z).1.fresh = 0) := by
  unfold seedStep
  rw [h]
  refine ⟨rfl, ?_, ?_⟩
  · intro h2
    rw [h2]
    rfl
  · intro hp
    subst hp
    exact ⟨rfl, rfl⟩

/-! ## Anchor containment in structural matches -/

theorem ws_not_word {x : Char} (h : isPySpace x = true) : isWordChar x = false := by
  unfold isPySpace at h
  simp only [Bool.or_eq_true, beq_iff_eq] at h
  rcases h with ((((h | h) | h) | h) | h) | h <;> subst h <;> rfl

theorem digit_not_ws {x : Char} (h : isPyDigit x = true) : isPySpace x = false := by
  unfold isPyDigit at h
  rw [Bool.and_eq_true, decide_eq_true_eq, decide_eq_true_eq] at h
  obtain ⟨h1, h2⟩ := h
  simp only [isPySpace, Bool.or_eq_false_iff, beq_eq_false_iff_ne]
  refine ⟨⟨⟨⟨⟨?_, ?_⟩, ?_⟩, ?_⟩, ?_⟩, ?_⟩ <;> intro he <;> subst he <;>
    revert h1 h2 <;> decide

theorem lastOk_append {u v : List Char} (hv : v ≠ []) :
    lastOk (u ++ v) = lastOk v := by
  induction u with
  | nil => rfl
  | cons c u' ih =>
    rw [List.cons_append,
      lastOk_cons_of_ne_nil (List.append_ne_nil_of_right_ne_nil u' hv), ih]

theorem flagAfter_cons (b : Bool) (c : Char) (t : List Char) :
    flagAfter b (c :: t) = flagAfter (isWordChar c) t := rfl

theorem zipAnchorScan_cons (b : Bool) (c : Char) (t : List Char) :
    zipAnchorScan b (c :: t) =
      ((!b && zipTail (c :: t)) || zipAnchorScan (isWordChar c) t) := rfl

theorem zipAnchorScan_append {v : List Char} :
    ∀ (u : List Char) (b : Bool),
    zipAnchorScan (flagAfter b u) v = true → zipAnchorScan b (u ++ v) = true := by
  intro u
  induction u with
  | nil => exact fun b h => h
  | cons c t ih =>
    intro b h
    rw [List.cons_append, zipAnchorScan_cons, Bool.or_eq_true]
    exact Or.inr (ih (isWordChar c) h)

theorem drop_takeWhile_length (p : Char → Bool) : ∀ (l : List Char),
    l.drop (l.takeWhile p).length = l.dropWhile p := by
  intro l
  induction l with
  | nil => rfl
  | cons c t ih =>
    rw [List.takeWhile_cons, List.dropWhile_cons]
    by_cases hc : p c = true
    · rw [if_pos hc, if_pos hc, List.length_cons, List.drop_succ_cons, ih]
    · rw [if_neg hc, if_neg hc]
      rfl

theorem takeWhile_all_append {p : Char → Bool} {w : List Char} {d : Char}
    (v : List Char) (hw : ∀ x ∈ w, p x = true) (hd : p d = false) :
    (w ++ d :: v).takeWhile p = w := by
  induction w with
  | nil =>
    rw [List.nil_append, List.takeWhile_cons, hd]
    rfl
  | cons c w' ih =>
    rw [List.cons_append, List.takeWhile_cons, hw c (List.mem_cons_self _ _)]
    rw [ih (fun x hx => hw x (List.mem_cons.2 (Or.inr hx))), if_pos rfl]

theorem zipTail_shape {c a : Char} {w2 : List Char} {d1 d2 d3 d4 : Char}
    {opt : List Char}
    (hc : c = 'C' ∨ c = 'c') (ha : a = 'A' ∨ a = 'a')
    (hw2 : ∀ x ∈ w2, isPySpace x = true) (hw2n : w2 ≠ [])
    (hd : (isPyDigit d1 && isPyDigit d2 && isPyDigit d3 && isPyDigit d4) = true)
    (hopt : opt = [] ∨ ∃ e1 e2 e3 e4, opt = ['-', e1, e2, e3, e4]) :
    zipTail (c :: a :: (w2 ++ '9' :: d1 :: d2 :: d3 :: d4 :: opt)) = true := by
  have hca : ((c == 'C' || c == 'c') && (a == 'A' || a == 'a')) = true := by
    rcases hc with rfl | rfl <;> rcases ha with rfl | rfl <;> rfl
  have h9 : isPySpace '9' = false := rfl
  have htw : (w2 ++ '9' :: d1 :: d2 :: d3 :: d4 :: opt).takeWhile isPySpace = w2 :=
    takeWhile_all_append _ hw2 h9
  have hlen : (w2.length == 0) = false := by
    cases w2 with
    | nil => exact absurd rfl hw2n
    | cons x xs => rfl
  show (if ((c == 'C' || c == 'c') && (a == 'A' || a == 'a')) = true then _ else false) = true
  rw [if_pos hca]
  rw [htw]
  rw [if_neg (by rw [hlen]; exact Bool.false_ne_true)]
  rw [List.drop_left]
  rcases hopt with rfl | ⟨e1, e2, e3, e4, rfl⟩
  · show (if (isPyDigit d1 && isPyDigit d2 && isPyDigit d3 && isPyDigit d4) = true
      then boundaryOk [] else false) = true
    rw [if_pos hd]
    rfl
  · show (if (isPyDigit d1 && isPyDigit d2 && isPyDigit d3 && isPyDigit d4) = true
      then ((isPyDigit e1 && isPyDigit e2 && isPyDigit e3 && isPyDigit e4
        && boundaryOk []) || boundaryOk ('-' :: e1 :: e2 :: e3 :: e4 :: []))
      else false) = true
    rw [if_pos hd, Bool.or_eq_true]
    right
    rfl

theorem nat_beq_zero_false_ne_nil {l : List Char} (h : ¬(l.length == 0) = true) :
    l ≠ [] := by
  intro he
  subst he
  exact h rfl

theorem flagAfter_nonword : ∀ {u : List Char},
    (∀ x ∈ u, isWordChar x = false) → flagAfter false u = false := by
  intro u
  induction u with
  | nil => exact fun _ => rfl
  | cons c t ih =>
    intro h
    rw [flagAfter_cons, h c (List.mem_cons_self _ _)]
    exact ih (fun x hx => h x (List.mem_cons.2 (Or.inr hx)))

theorem zipPart_piece_spec {w : List Char} {c a : Char} {w2 : List Char}
    {d1 d2 d3 d4 : Char} {opt : List Char}
    (hwmem : ∀ x ∈ w, isPySpace x = true)
    (hc : c = 'C' ∨ c = 'c') (ha : a = 'A' ∨ a = 'a')
    (hw2 : ∀ x ∈ w2, isPySpace x = true) (hw2n : w2 ≠ [])
    (hd : (isPyDigit d1 && isPyDigit d2 && isPyDigit d3 && isPyDigit d4) = true)
    (hlast : lastOk ('9' :: d1 :: d2 :: d3 :: d4 :: opt) = true)
    (hopt : opt = [] ∨ ∃ e1 e2 e3 e4, opt = ['-', e1, e2, e3, e4]) :
    (w ++ c :: a :: w2 ++ '9' :: d1 :: d2 :: d3 :: d4 :: opt) ≠ [] ∧
    lastOk (w ++ c :: a :: w2 ++ '9' :: d1 :: d2 :: d3 :: d4 :: opt) = true ∧
    ∀ b, zipAnchorScan b
      (',' :: (w ++ c :: a :: w2 ++ '9' :: d1 :: d2 :: d3 :: d4 :: opt)) = true := by
  have htail : zipTail (c :: a :: (w2 ++ '9' :: d1 :: d2 :: d3 :: d4 :: opt)) = true :=
    zipTail_shape hc ha hw2 hw2n hd hopt
  refine ⟨by simp, ?_, ?_⟩
  · have l2 : lastOk (w ++ c :: a :: w2 ++ '9' :: d1 :: d2 :: d3 :: d4 :: opt) =
        lastOk ('9' :: d1 :: d2 :: d3 :: d4 :: opt) :=
      lastOk_append (by simp)
    rw [l2]
    exact hlast
  · intro b
    rw [zipAnchorScan_cons, Bool.or_eq_true]
    right
    have hflag : flagAfter (isWordChar ',') w = false := by
      cases w with
      | nil => rfl
      | cons x xs =>
        rw [flagAfter_cons]
        have hx : isWordChar x = false := ws_not_word (hwmem x (List.mem_cons_self _ _))
        rw [hx]
        exact flagAfter_nonword
          (fun y hy => ws_not_word (hwmem y (List.mem_cons.2 (Or.inr hy))))
    rw [List.append_assoc]
    apply zipAnchorScan_append
    show zipAnchorScan (flagAfter (isWordChar ',') w)
      (c :: a :: w2 ++ '9' :: d1 :: d2 :: d3 :: d4 :: opt) = true
    rw [hflag]
    show zipAnchorScan false
      (c :: a :: (w2 ++ '9' :: d1 :: d2 :: d3 :: d4 :: opt)) = true
    rw [zipAnchorScan_cons, Bool.or_eq_true]
    left
    rw [htail]
    rfl

theorem zipPartM_spec {l p r : List Char} (h : zipPartM l = some (p, r)) :
    p ++ r = l ∧ p ≠ [] ∧ lastOk p = true ∧
    ∀ b, zipAnchorScan b (',' :: p) = true := by
  unfold zipPartM at h
  split at h
  · next c a r2 heq =>
    rw [drop_takeWhile_length] at heq
    have hl : l.takeWhile isPySpace ++ (c :: a :: r2) = l := by
      rw [← heq]
      exact List.takeWhile_append_dropWhile _ _
    have hwmem : ∀ x ∈ l.takeWhile isPySpace, isPySpace x = true :=
      fun x hx => List.mem_takeWhile_imp hx
    split at h
    · next hca =>
      rw [Bool.and_eq_true, Bool.or_eq_true, Bool.or_eq_true] at hca
      have hc : c = 'C' ∨ c = 'c' := by
        rcases hca.1 with h1 | h1
        · exact Or.inl (eq_of_beq h1)
        · exact Or.inr (eq_of_beq h1)
      have ha : a = 'A' ∨ a = 'a' := by
        rcases hca.2 with h1 | h1
        · exact Or.inl (eq_of_beq h1)
        · exact Or.inr (eq_of_beq h1)
      split at h
      · exact Option.noConfusion h
      · next hw2 =>
        have hw2n : r2.takeWhile isPySpace ≠ [] := nat_beq_zero_false_ne_nil hw2
        have hw2mem : ∀ x ∈ r2.takeWhile isPySpace, isPySpace x = true :=
          fun x hx => List.mem_takeWhile_imp hx
        split at h
        · next d1 d2 d3 d4 r4 heq2 =>
          rw [drop_takeWhile_length] at heq2
          have hr2 : r2.takeWhile isPySpace ++ ('9' :: d1 :: d2 :: d3 :: d4 :: r4) = r2 := by
            rw [← heq2]
            exact List.takeWhile_append_dropWhile _ _
          split at h
          · next hd =>
            split at h
            · next =>
              rename_i E1 E2 E3 E4 R5
              split at h
              · next he =>
                rw [Option.some.injEq, Prod.mk.injEq] at h
                obtain ⟨hp, hr⟩ := h
                subst hp
                subst hr
                have hd4 : isPyDigit E4 = true := by
                  rw [Bool.and_eq_true, Bool.and_eq_true, Bool.and_eq_true] at he
                  exact he.2
                have hlast : lastOk ('9' :: d1 :: d2 :: d3 :: d4 ::
                    ('-' :: E1 :: E2 :: E3 :: [E4])) = true := by
                  simp only [lastOk_cons₂, lastOk_single, digit_not_ws hd4]
                  rfl
                obtain ⟨hne, hlastp, hanch⟩ := zipPart_piece_spec hwmem hc ha hw2mem hw2n hd
                  hlast (Or.inr ⟨E1, E2, E3, E4, rfl⟩)
                refine ⟨?_, hne, hlastp, hanch⟩
                have hassoc : List.takeWhile isPySpace l ++
                    c :: a :: List.takeWhile isPySpace r2 ++
                    ['9', d1, d2, d3, d4, '-', E1, E2, E3, E4] ++ R5 =
                    List.takeWhile isPySpace l ++ (c :: a :: (List.takeWhile isPySpace r2 ++
                      ('9' :: d1 :: d2 :: d3 :: d4 :: '-' :: E1 :: E2 :: E3 :: E4 :: R5))) := by
                  simp
                rw [hassoc, hr2, hl]
              · next he =>
                rw [Option.some.injEq, Prod.mk.injEq] at h
                obtain ⟨hp, hr⟩ := h
                subst hp
                subst hr
                have hd4 : isPyDigit d4 = true := by
                  rw [Bool.and_eq_true, Bool.and_eq_true, Bool.and_eq_true] at hd
                  exact hd.2
                have hlast : lastOk ('9' :: d1 :: d2 :: d3 :: d4 :: ([] : List Char)) = true := by
                  simp only [lastOk_cons₂, lastOk_single, digit_not_ws hd4]
                  rfl
                obtain ⟨hne, hlastp, hanch⟩ := zipPart_piece_spec hwmem hc ha hw2mem hw2n hd
                  hlast (Or.inl rfl)
                refine ⟨?_, hne, hlastp, hanch⟩
                have hassoc : List.takeWhile isPySpace l ++
                    c :: a :: List.takeWhile isPySpace r2 ++
                    ['9', d1, d2, d3, d4] ++ ('-' :: E1 :: E2 :: E3 :: E4 :: R5) =
                    List.takeWhile isPySpace l ++ (c :: a :: (List.takeWhile isPySpace r2 ++
                      ('9' :: d1 :: d2 :: d3 :: d4 :: '-' :: E1 :: E2 :: E3 :: E4 :: R5))) := by
                  simp
                rw [hassoc, hr2, hl]
            · next =>
              rw [Option.some.injEq, Prod.mk.injEq] at h
              obtain ⟨hp, hr⟩ := h
              subst hp
              subst hr
              have hd4 : isPyDigit d4 = true := by
                rw [Bool.and_eq_true, Bool.and_eq_true, Bool.and_eq_true] at hd
                exact hd.2
              have hlast : lastOk ('9' :: d1 :: d2 :: d3 :: d4 :: ([] : List Char)) = true := by
                simp only [lastOk_cons₂, lastOk_single, digit_not_ws hd4]
                rfl
              obtain ⟨hne, hlastp, hanch⟩ := zipPart_piece_spec hwmem hc ha hw2mem hw2n hd
                hlast (Or.inl rfl)
              refine ⟨?_, hne, hlastp, hanch⟩
              have hassoc : List.takeWhile isPySpace l ++
                  c :: a :: List.takeWhile isPySpace r2 ++
                  ['9', d1, d2, d3, d4] ++ r4 =
                  List.takeWhile isPySpace l ++ (c :: a :: (List.takeWhile isPySpace r2 ++
                    ('9' :: d1 :: d2 :: d3 :: d4 :: r4))) := by
                simp
              rw [hassoc, hr2, hl]
          · exact Option.noConfusion h
        · exact Option.noConfusion h
    · exact Option.noConfusion h
  · exact Option.noConfusion h

theorem afterC1_spec {t p r : List Char} (h : afterC1 t = some (p, r)) :
    p ++ r = t ∧ p ≠ [] ∧ lastOk p = true ∧ ∀ b, zipAnchorScan b p = true := by
  unfold afterC1 at h
  split at h
  · exact Option.noConfusion h
  · split at h
    · next t2 heqd =>
      rw [drop_takeWhile_length] at heqd
      have ht : t.takeWhile (fun c => !(c == ',')) ++ (',' :: t2) = t := by
        rw [← heqd]
        exact List.takeWhile_append_dropWhile _ _
      rw [Option.map_eq_some'] at h
      obtain ⟨pr2, hzp, hpr⟩ := h
      rw [Prod.mk.injEq] at hpr
      obtain ⟨hp, hr⟩ := hpr
      obtain ⟨hsound, hne2, hlast2, hanch2⟩ := zipPartM_spec (p := pr2.1) (r := pr2.2) hzp
      subst hp
      subst hr
      refine ⟨?_, List.append_ne_nil_of_right_ne_nil _ (by simp), ?_, ?_⟩
      · have hassoc : (t.takeWhile (fun c => !(c == ',')) ++ ',' :: pr2.1) ++ pr2.2 =
            t.takeWhile (fun c => !(c == ',')) ++ (',' :: (pr2.1 ++ pr2.2)) := by
          simp
        rw [hassoc, hsound, ht]
      · have l1 : lastOk (t.takeWhile (fun c => !(c == ',')) ++ ',' :: pr2.1) =
            lastOk (',' :: pr2.1) := lastOk_append (by simp)
        rw [l1, lastOk_cons_of_ne_nil hne2]
        exact hlast2
      · intro b
        apply zipAnchorScan_append
        exact hanch2 _
    · exact Option.noConfusion h

theorem tryCommasAux_spec : ∀ {u : List Char} {p r : List Char},
    tryCommasAux u = some (p, r) →
    p ++ r = u ∧ p ≠ [] ∧ lastOk p = true ∧ ∀ b, zipAnchorScan b p = true := by
  intro u
  induction u with
  | nil => intro p r h; exact Option.noConfusion h
  | cons c t ih =>
    intro p r h
    unfold tryCommasAux at h
    split at h
    · next hc =>
      split at h
      · next pr hac =>
        rw [Option.some.injEq, Prod.mk.injEq] at h
        obtain ⟨hp, hr⟩ := h
        subst hp
        subst hr
        obtain ⟨hs, hne, hlst, hanch⟩ := afterC1_spec (p := pr.1) (r := pr.2) hac
        refine ⟨?_, by simp, ?_, ?_⟩
        · rw [List.cons_append, hs, eq_of_beq hc]
        · rw [lastOk_cons_of_ne_nil hne]
          exact hlst
        · intro b
          rw [zipAnchorScan_cons, Bool.or_eq_true]
          right
          exact hanch _
      · next hac =>
        rw [Option.map_eq_some'] at h
        obtain ⟨pr', htc, hpr⟩ := h
        rw [Prod.mk.injEq] at hpr
        obtain ⟨hp, hr⟩ := hpr
        subst hp
        subst hr
        obtain ⟨hs, hne, hlst, hanch⟩ := ih (p := pr'.1) (r := pr'.2) htc
        refine ⟨by rw [List.cons_append, hs], by simp, ?_, ?_⟩
        · rw [lastOk_cons_of_ne_nil hne]
          exact hlst
        · intro b
          rw [zipAnchorScan_cons, Bool.or_eq_true]
          right
          exact hanch _
    · rw [Option.map_eq_some'] at h
      obtain ⟨pr', htc, hpr⟩ := h
      rw [Prod.mk.injEq] at hpr
      obtain ⟨hp, hr⟩ := hpr
      subst hp
      subst hr
      obtain ⟨hs, hne, hlst, hanch⟩ := ih (p := pr'.1) (r := pr'.2) htc
      refine ⟨by rw [List.cons_append, hs], by simp, ?_, ?_⟩
      · rw [lastOk_cons_of_ne_nil hne]
        exact hlst
      · intro b
        rw [zipAnchorScan_cons, Bool.or_eq_true]
        right
        exact hanch _

theorem matchAddrBody_spec {ds ws body p r : List Char}
    (hds : ds ≠ []) (hdsmem : ∀ x ∈ ds, isPyDigit x = true)
    (h : matchAddrBody ds ws body = some (p, r)) :
    p ++ r = ds ++ ws ++ body ∧ zipAnchorFound p = true ∧
    headOk p = true ∧ lastOk p = true := by
  unfold matchAddrBody at h
  split at h
  · exact Option.noConfusion h
  · next b0 brest =>
    have hdshead : ∀ (X : List Char), headOk (ds ++ X) = true := by
      intro X
      cases ds with
      | nil => exact absurd rfl hds
      | cons d ds' =>
        show (!isPySpace d) = true
        rw [digit_not_ws (hdsmem d (List.mem_cons_self _ _))]
        rfl
    split at h
    · next pr htc =>
      rw [Option.some.injEq, Prod.mk.injEq] at h
      obtain ⟨hp, hr⟩ := h
      subst hp
      subst hr
      obtain ⟨hs, hne, hlst, hanch⟩ := tryCommasAux_spec (p := pr.1) (r := pr.2) htc
      refine ⟨?_, ?_, ?_, ?_⟩
      · have hassoc : ds ++ ws ++ b0 :: pr.1 ++ pr.2 =
            ds ++ ws ++ (b0 :: (pr.1 ++ pr.2)) := by simp
        rw [hassoc, hs]
      · unfold zipAnchorFound
        apply zipAnchorScan_append
        show zipAnchorScan (flagAfter false (ds ++ ws)) (b0 :: pr.1) = true
        rw [zipAnchorScan_cons, Bool.or_eq_true]
        right
        exact hanch _
      · have : ds ++ ws ++ b0 :: pr.1 = ds ++ (ws ++ b0 :: pr.1) := by simp
        rw [this]
        exact hdshead _
      · have l1 : lastOk (ds ++ ws ++ b0 :: pr.1) = lastOk (b0 :: pr.1) :=
          lastOk_append (by simp)
        rw [l1, lastOk_cons_of_ne_nil hne]
        exact hlst
    · next htc =>
      split at h
      · next hcond =>
        rw [Option.map_eq_some'] at h
        obtain ⟨pr, hac, hpr⟩ := h
        rw [Prod.mk.injEq] at hpr
        obtain ⟨hp, hr⟩ := hpr
        subst hp
        subst hr
        rw [Bool.and_eq_true] at hcond
        have hb0 : b0 = ',' := eq_of_beq hcond.2
        obtain ⟨hs, hne, hlst, hanch⟩ := afterC1_spec (p := pr.1) (r := pr.2) hac
        refine ⟨?_, ?_, ?_, ?_⟩
        · have hassoc : ds ++ ws ++ ',' :: pr.1 ++ pr.2 =
              ds ++ ws ++ (',' :: (pr.1 ++ pr.2)) := by simp
          rw [hassoc, hs, hb0]
        · unfold zipAnchorFound
          apply zipAnchorScan_append
          show zipAnchorScan (flagAfter false (ds ++ ws)) (',' :: pr.1) = true
          rw [zipAnchorScan_cons, Bool.or_eq_true]
          right
          exact hanch _
        · have : ds ++ ws ++ ',' :: pr.1 = ds ++ (ws ++ ',' :: pr.1) := by simp
          rw [this]
          exact hdshead _
        · have l1 : lastOk (ds ++ ws ++ ',' :: pr.1) = lastOk (',' :: pr.1) :=
            lastOk_append (by simp)
          rw [l1, lastOk_cons_of_ne_nil hne]
          exact hlst
      · exact Option.noConfusion h

theorem matchAddr_spec {l p r : List Char} (h : matchAddr l = some (p, r)) :
    p ++ r = l ∧ zipAnchorFound p = true ∧ headOk p = true ∧ lastOk p = true := by
  unfold matchAddr at h
  split at h
  · exact Option.noConfusion h
  · next hds =>
    split at h
    · exact Option.noConfusion h
    · next hws =>
      have hds' : l.takeWhile isPyDigit ≠ [] := by
        intro he
        rw [he] at hds
        exact hds rfl
      obtain ⟨hs, hanch, hh, hl'⟩ :=
        matchAddrBody_spec hds' (fun x hx => List.mem_takeWhile_imp hx) h
      refine ⟨?_, hanch, hh, hl'⟩
      rw [hs, List.append_assoc]
      have h2 : (l.drop (l.takeWhile isPyDigit).length).takeWhile isPySpace ++
          ((l.drop (l.takeWhile isPyDigit).length).drop
            ((l.drop (l.takeWhile isPyDigit).length).takeWhile isPySpace).length) =
          l.drop (l.takeWhile isPyDigit).length := by
        rw [drop_takeWhile_length, drop_takeWhile_length]
        exact List.takeWhile_append_dropWhile _ _
      rw [h2, drop_takeWhile_length]
      exact List.takeWhile_append_dropWhile _ _

theorem addrSearch_spec : ∀ {s g : List Char}, addrSearch s = some g →
    (∃ u v, s = u ++ (g ++ v)) ∧ zipAnchorFound g = true ∧
    headOk g = true ∧ lastOk g = true := by
  intro s
  induction s with
  | nil => intro g h; exact Option.noConfusion h
  | cons c t ih =>
    intro g h
    unfold addrSearch at h
    split at h
    · next pr hm =>
      rw [Option.some.injEq] at h
      subst h
      obtain ⟨hs, ha, hh, hl⟩ := matchAddr_spec (p := pr.1) (r := pr.2) hm
      refine ⟨⟨[], pr.2, ?_⟩, ha, hh, hl⟩
      rw [List.nil_append]
      exact hs.symm
    · next hm =>
      obtain ⟨⟨u, v, he⟩, ha, hh, hl⟩ := ih h
      refine ⟨⟨c :: u, v, ?_⟩, ha, hh, hl⟩
      rw [List.cons_append, ← he]

theorem noPair_append_right {p q : Char → Bool} : ∀ (u : List Char) {v : List Char},
    noPair p q (u ++ v) = true → noPair p q v = true := by
  intro u
  induction u with
  | nil => exact fun h => h
  | cons a u' ih =>
    intro v h
    exact ih (noPair_tail h)

theorem noPair_append_left {p q : Char → Bool} : ∀ (u v : List Char),
    noPair p q (u ++ v) = true → noPair p q u = true := by
  intro u
  induction u with
  | nil => intro v _; rfl
  | cons a u' ih =>
    intro v h
    cases u' with
    | nil => exact noPair_one p q a
    | cons b u'' =>
      rw [noPair_cons₂, Bool.and_eq_true]
      have h' : noPair p q (a :: b :: (u'' ++ v)) = true := h
      exact ⟨noPair_head h', ih v (noPair_tail h')⟩

theorem canon_infix {s g u v : List Char} (hs : canon s = true)
    (he : s = u ++ (g ++ v)) (hh : headOk g = true) (hl : lastOk g = true) :
    canon g = true := by
  obtain ⟨h1, h2, h3, _, _⟩ := canon_parts hs
  subst he
  refine canon_intro ?_ ?_ ?_ hh hl
  · exact spacesOk_of_sublist
      ((List.sublist_append_left g v).trans (List.sublist_append_right u _)) h1
  · exact noPair_append_left g v (noPair_append_right u h2)
  · exact noPair_append_left g v (noPair_append_right u h3)

theorem extractAddressOnlyL_spec {l a : List Char}
    (h : extractAddressOnlyL l = some a) :
    canon a = true ∧ zipAnchorFound a = true := by
  unfold extractAddressOnlyL at h
  have hcs : canon (cleanedLine l) = true := by
    unfold cleanedLine
    exact normList_canon _
  split at h
  · next g hsearch =>
    rw [Option.some.injEq] at h
    subst h
    obtain ⟨⟨u, v, hinf⟩, hanch, hhg, hlg⟩ := addrSearch_spec hsearch
    have hcg : canon g = true := canon_infix hcs hinf hhg hlg
    rw [canon_fix hcg]
    exact ⟨hcg, hanch⟩
  · split at h
    · next hcond =>
      split at h
      · rw [Option.some.injEq] at h
        subst h
        rw [pyStrip_of_canon hcs, canon_fix hcs]
        rw [Bool.and_eq_true] at hcond
        exact ⟨hcs, hcond.1⟩
      · exact Option.noConfusion h
    · exact Option.noConfusion h

theorem tryK_mem {block : List (List Char)} {k : Nat} {a : List Char}
    (h : tryK block k = some a) : ∃ ln, extractAddressOnlyL ln = some a := by
  unfold tryK at h
  split at h
  · exact ⟨_, h⟩
  · exact Option.noConfusion h

theorem tryJoins_mem {block : List (List Char)} {a : List Char}
    (h : tryJoins block = some a) : ∃ ln, extractAddressOnlyL ln = some a := by
  unfold tryJoins at h
  split at h
  · next a1 h1 =>
    rw [Option.some.injEq] at h
    subst h
    exact tryK_mem h1
  · split at h
    · next a1 h1 =>
      rw [Option.some.injEq] at h
      subst h
      exact tryK_mem h1
    · split at h
      · next a1 h1 =>
        rw [Option.some.injEq] at h
        subst h
        exact tryK_mem h1
      · exact tryK_mem h

theorem windowPass_mem : ∀ (lines block : List (List Char)) {a : List Char},
    a ∈ windowPass block lines → ∃ ln, extractAddressOnlyL ln = some a := by
  intro lines
  induction lines with
  | nil => intro block a h; cases h
  | cons ln rest ih =>
    intro block a h
    unfold windowPass at h
    rw [List.mem_append] at h
    rcases h with h | h
    · by_cases hz : zipAnchorFound ln = true
      · rw [if_pos hz] at h
        cases htj : tryJoins (if decide (5 < (block ++ [ln]).length) = true
            then (block ++ [ln]).drop ((block ++ [ln]).length - 5) else block ++ [ln]) with
        | none => rw [htj] at h; cases h
        | some a1 =>
          rw [htj] at h
          rw [Option.toList_some, List.mem_singleton] at h
          subst h
          exact tryJoins_mem htj
      · rw [if_neg hz] at h
        cases h
    · exact ih _ h

theorem rawCandidates_spec {t c : List Char} (hc : c ∈ rawCandidates t) :
    ∃ ln, extractAddressOnlyL ln = some c := by
  unfold rawCandidates at hc
  rw [List.mem_append] at hc
  rcases hc with hc | hc
  · unfold anchorPass at hc
    rw [List.mem_filterMap] at hc
    obtain ⟨ln, _, he⟩ := hc
    by_cases hz : zipAnchorFound ln = true
    · rw [if_pos hz] at he
      exact ⟨ln, he⟩
    · rw [if_neg hz] at he
      cases he
  · exact windowPass_mem _ _ hc

theorem extract_mem_spec {t a : List Char} (h : a ∈ extractUniqueL t) :
    a ≠ [] ∧ normList a = a ∧ zipAnchorFound a = true := by
  obtain ⟨cnd, hcnd, hnorm, hne⟩ := uniqAux_mem h
  obtain ⟨ln, hea⟩ := rawCandidates_spec hcnd
  obtain ⟨hcanon, hanch⟩ := extractAddressOnlyL_spec hea
  have hfix : normList cnd = cnd := canon_fix hcanon
  have hac : a = cnd := hnorm.trans hfix
  subst hac
  exact ⟨hne, hfix, hanch⟩

/-! ## The claims -/

/-- C1: on the 3-line panel text 123 Main St, / Springfield, / CA 94000 the
windowed pass answers, but with the 2-line join: the k = 2 candidate
Springfield, CA 94000 already passes the best-effort branch of
extract_address_only (anchor, digit and comma-space-ca present), and k is
tried smallest-first, so the 3-line join is preempted and the full joined
address is not recovered. -/
theorem C1_three_line_window :
    extract_unique_addresses "123 Main St,\nSpringfield,\nCA 94000" =
      ["Springfield, CA 94000"] := rfl

/-- C1 counterexample to the claimed output: the full 3-line join is not
among the returned addresses. -/
theorem C1_counterexample :
    "123 Main St, Springfield, CA 94000" ∉
      extract_unique_addresses "123 Main St,\nSpringfield,\nCA 94000" := by
  intro h
  have he : extract_unique_addresses "123 Main St,\nSpringfield,\nCA 94000" =
      ["Springfield, CA 94000"] := rfl
  rw [he, List.mem_singleton] at h
  exact absurd h (by decide)

/-- C2: norm tightens whitespace before a comma, but inserts no space after
a comma that is not already followed by whitespace: X-space-comma-space-Y
becomes X-comma-space-Y, while X-space-comma-Y becomes X-comma-Y, and the
doubly padded A-comma-B line collapses to A-comma-B with no space. -/
theorem C2_comma_spacing :
    norm "X , Y" = "X, Y" ∧ norm "X ,Y" = "X,Y" ∧ norm "  A   ,B " = "A,B" :=
  ⟨rfl, rfl, rfl⟩

/-- C2 counterexample to the claimed always-present space after the comma. -/
theorem C2_counterexample : ¬ norm "X ,Y" = "X, Y" := by decide

/-- C3: the best-effort branch of extract_address_only keeps the whole
cleaned line only under three conditions: no structural match, anchor and
digit present, and the lowercased line contains comma-space-c-a-space
(the rfind test of script.py line 55); under those conditions the
normalized stripped line is returned. -/
theorem C3_best_effort_line (l : List Char)
    (h1 : addrSearch (cleanedLine l) = none)
    (h2 : (zipAnchorFound (cleanedLine l) && hasDigit (cleanedLine l)) = true)
    (h3 : containsSub [',', ' ', 'c', 'a', ' '] (toLowerL (cleanedLine l)) = true) :
    extractAddressOnlyL l = some (normList (pyStrip (cleanedLine l))) := by
  unfold extractAddressOnlyL
  rw [h1]
  rw [if_pos h2, if_pos h3]

/-- C3 witness: the line Springfield, CA 94000 has no structural match but
meets all three best-effort conditions and is kept whole. -/
theorem C3_witness :
    extractAddressOnlyL ("Springfield, CA 94000").data =
      some ("Springfield, CA 94000").data := by
  have h := C3_best_effort_line ("Springfield, CA 94000").data rfl rfl rfl
  exact h.trans (by rfl)

/-- C3 counterexample to the claimed two-condition rule: the line CA 94000
has the anchor and a digit and no structural match, yet it is discarded,
because its lowercase form holds no comma-space-c-a-space substring. -/
theorem C3_counterexample :
    addrSearch (cleanedLine ("CA 94000").data) = none ∧
    zipAnchorFound (cleanedLine ("CA 94000").data) = true ∧
    hasDigit (cleanedLine ("CA 94000").data) = true ∧
    extractAddressOnlyL ("CA 94000").data = none :=
  ⟨rfl, rfl, rfl, rfl⟩

/-- C4: of the degenerate steps, only step = 0 fails fast (the ValueError
of range, modelled as none); every negative step silently yields the empty
seed list, because range(start, 96200, step) is empty for negative step. -/
theorem C4_degenerate_step (step : Int) (j : Bool) (h : step ≤ 0) :
    (step = 0 → generate_ca_zip_seeds step j = none) ∧
    (step < 0 → generate_ca_zip_seeds step j = some []) :=
  generate_degenerate step j h

/-- C4 witness: step minus-one without jitter silently returns the empty
list. -/
theorem C4_witness : generate_ca_zip_seeds (-1) false = some [] :=
  (C4_degenerate_step (-1) false (by decide)).2 (by decide)

/-- C4 counterexample to fail-fast on every degenerate input: step
minus-five with jitter returns the empty list with no error. -/
theorem C4_counterexample : generate_ca_zip_seeds (-5) true = some [] :=
  (generate_degenerate (-5) true (by decide)).2 (by decide)

/-- C5: writing distinct normalized non-empty addresses into the fresh
store appends each exactly once after the header, reloading that file
yields exactly the same entries, and re-merging an address already present
changes nothing (no duplicate line on disk). -/
theorem C5_store_roundtrip (addrs : List String) (hnd : addrs.Nodup)
    (hfix : ∀ a ∈ addrs, norm a = a) (hne : ∀ a ∈ addrs, a ≠ "") :
    loadSeen (mergeNew initStore addrs).file = addrs ∧
    (mergeNew initStore addrs).file = "address" :: addrs ∧
    ∀ a ∈ addrs, mergeNew (mergeNew initStore addrs) [a] = mergeNew initStore addrs := by
  have hm := mergeNew_init hnd hfix
  rw [hm]
  refine ⟨?_, rfl, ?_⟩
  · show loadSeen ("address" :: addrs) = addrs
    unfold loadSeen
    show addrs.foldl
      (fun seen ln =>
        let l := pyStripS ln
        if !l.isEmpty then setAdd seen l else seen) [] = addrs
    rw [loadSeen_fold addrs [] hnd
      (fun a ha => ⟨pyStripS_of_norm_fix (hfix a ha), hne a ha⟩)
      (fun a _ hmem => absurd hmem (List.not_mem_nil a))]
    rfl
  · intro a ha
    exact mergeNew_already_seen ha

/-- C5 witness: one concrete address round-trips through the store. -/
theorem C5_witness :
    loadSeen (mergeNew initStore ["12 Oak St, CA 90210"]).file =
      ["12 Oak St, CA 90210"] :=
  (C5_store_roundtrip ["12 Oak St, CA 90210"] (List.nodup_singleton _)
    (by intro a ha; rw [List.mem_singleton] at ha; subst ha; rfl)
    (by intro a ha; rw [List.mem_singleton] at ha; subst ha; decide)).1

/-- C6: for every positive step the seed list exists and is characterized
exactly: the i-th seed is the 05d rendering of start + i * step, present
precisely while that value stays at most 96199, where start is 90000 plus
step-floor-div-two under jitter and 90000 otherwise; and every seed has
five characters. -/
theorem C6_seed_sequence {step : Int} (h : 0 < step) (jitter : Bool) :
    ∃ l, generate_ca_zip_seeds step jitter = some l ∧
      (∀ i : Nat,
        l[i]? = some (pad5 ((if jitter then 90000 + step / 2 else 90000) + (i : Int) * step)) ↔
        (if jitter then 90000 + step / 2 else 90000) + (i : Int) * step ≤ 96199) ∧
      (∀ s ∈ l, s.length = 5) :=
  generate_pos_spec h jitter

/-- C6 witness: step 100 without jitter yields a seed list of five-character
seeds. -/
theorem C6_witness :
    ∃ l, generate_ca_zip_seeds 100 false = some l ∧ ∀ s ∈ l, s.length = 5 := by
  obtain ⟨l, h1, _, h3⟩ := @C6_seed_sequence 100 (by decide) false
  exact ⟨l, h1, h3⟩

/-- C7: norm is idempotent on every string. -/
theorem C7_norm_idempotent (s : String) : norm (norm s) = norm s := by
  show (⟨normList (normList s.data)⟩ : String) = ⟨normList s.data⟩
  rw [normList_idem]

/-- C8: when the bare seed submit fails, exactly one retry is made with the
seed-comma-CA form; when that fails too, the record carries mode failed,
and found and fresh are zero whenever the panel snapshot is empty; the loop
always produces one record per seed and continues. The zero counts need
the empty-panel hypothesis: found is taken from the final panel snapshot,
not forced to zero by the failed submits. -/
theorem C8_fallback_retry (submitRes : String → Bool) (panelFor : String → String)
    (st : Store) (z : String) (rest : List String)
    (h1 : submitRes z = false) (h2 : submitRes (z ++ ", CA") = false) :
    (seedStep submitRes (panelFor z) st z).1.attempts = [z, z ++ ", CA"] ∧
    (seedStep submitRes (panelFor z) st z).1.mode = "failed" ∧
    (panelFor z = "" →
      (seedStep submitRes (panelFor z) st z).1.found = 0 ∧
      (seedStep submitRes (panelFor z) st z).1.fresh = 0) ∧
    (runLoop submitRes panelFor st (z :: rest)).length = rest.length + 1 := by
  obtain ⟨ha, hm, hf⟩ := seedStep_fallback submitRes (panelFor z) st z h1
  refine ⟨ha, hm h2, hf, ?_⟩
  rw [runLoop_length submitRes panelFor (z :: rest) st]
  rfl

/-- C8 witness: with every submit failing and an empty panel, the record of
seed 90001 is mode failed with zero found. -/
theorem C8_witness :
    (seedStep (fun _ => false) "" initStore "90001").1.mode = "failed" ∧
    (seedStep (fun _ => false) "" initStore "90001").1.found = 0 := by
  obtain ⟨_, hm, hf, _⟩ :=
    C8_fallback_retry (fun _ => false) (fun _ => "") initStore "90001" [] rfl rfl
  exact ⟨hm, (hf rfl).1⟩

/-- C8 counterexample to found = 0 on double failure: with both submits
failing but an address visible in the panel snapshot, the record reports
mode failed yet found 1. -/
theorem C8_counterexample :
    (seedStep (fun _ => false) "12 Oak St, CA 90210" initStore "90001").1.mode =
      "failed" ∧
    (seedStep (fun _ => false) "12 Oak St, CA 90210" initStore "90001").1.found = 1 :=
  ⟨rfl, rfl⟩

/-- C9: extract_unique_addresses returns pairwise-distinct strings, and the
output is exactly the first-occurrence deduplication of the normalized
non-empty candidates in encounter order; the function is pure, so equal
panel texts give equal outputs. -/
theorem C9_extract_distinct_ordered (s : String) :
    (extract_unique_addresses s).Nodup ∧
    extract_unique_addresses s =
      (dedupFirst (((rawCandidates s.data).map normList).filter
        (fun x => !x.isEmpty))).map (fun l => ⟨l⟩) := by
  have hinj : Function.Injective (fun l : List Char => (⟨l⟩ : String)) := by
    intro a b hab
    exact congrArg String.data hab
  constructor
  · have hnd : (extractUniqueL s.data).Nodup := by
      rw [extractUniqueL_eq_dedupFirst]
      exact nodup_dedupFirst _
    exact hnd.map hinj
  · show (extractUniqueL s.data).map (fun l => (⟨l⟩ : String)) = _
    rw [extractUniqueL_eq_dedupFirst]

/-- C10: every address returned by extract_unique_addresses is non-empty,
is a fixed point of norm, and contains the anchor: CA at a word boundary,
whitespace, then a five-digit postal code starting with 9, optionally a
dash-and-four-digits suffix. -/
theorem C10_output_invariants (s a : String) (h : a ∈ extract_unique_addresses s) :
    a ≠ "" ∧ norm a = a ∧ zipAnchorFound a.data = true := by
  unfold extract_unique_addresses at h
  rw [List.mem_map] at h
  obtain ⟨l, hl, he⟩ := h
  obtain ⟨hne, hfix, hanch⟩ := extract_mem_spec hl
  subst he
  refine ⟨?_, ?_, ?_⟩
  · intro hcon
    exact hne (congrArg String.data hcon)
  · show (⟨normList l⟩ : String) = ⟨l⟩
    rw [hfix]
  · exact hanch

/-- C10 witness: the single-address panel returns itself, non-empty,
norm-fixed and anchored. -/
theorem C10_witness :
    ("12 Oak St, CA 90210" : String) ≠ "" ∧
    norm "12 Oak St, CA 90210" = "12 Oak St, CA 90210" ∧
    zipAnchorFound ("12 Oak St, CA 90210" : String).data = true :=
  C10_output_invariants "12 Oak St, CA 90210" "12 Oak St, CA 90210"
    (by
      have he : extract_unique_addresses "12 Oak St, CA 90210" =
          ["12 Oak St, CA 90210"] := rfl
      rw [he]
      exact List.mem_singleton.2 rfl)

end Scraper
